import Mathlib

/-!
# cd-timeline: the cooldown engine of `src/src/App.js`

A shallow embedding of the event store of `CDTimeline` and of the closures
that compute on it: `calculateAdjustedCooldown`, `updateEventTime`, the
text-input wrapper `handleInputChange`, `addEvent`, `removeEvent` and
`getWhirlingStarsChargesTimeline`.

* JavaScript numbers that hold seconds are `Int` (the engine only adds,
  subtracts and compares them), ids (`Date.now()`) are `Nat`.
* The React state `events` is passed explicitly; the argument handed to
  `setEvents` is the returned snapshot.
* A call that throws (`undefined.ability`, when it is evaluated) returns `none`;
  `setEvents` is then never reached.
* `Array.prototype.sort` is stable; with the comparator `a.time - b.time` it is
  the stable sort by `time`, here `List.insertionSort` on `time ≤ time`.
-/

namespace CDTimeline

/-- One usage event, as built by `addEvent`. -/
structure Event where
  id : Nat
  ability : String
  time : Int
  cooldown : Int
  controlOfTheDream : Bool
  deriving DecidableEq, Repr

/-- The comparator `(a, b) => a.time - b.time`, read as "a is not after b". -/
def timeLE (a b : Event) : Prop := a.time ≤ b.time

instance : DecidableRel timeLE := fun a b => inferInstanceAs (Decidable (a.time ≤ b.time))

instance : IsTotal Event timeLE := ⟨fun a b => Int.le_total a.time b.time⟩

instance : IsTrans Event timeLE := ⟨fun _ _ _ h₁ h₂ => Int.le_trans h₁ h₂⟩

/-- The expression `xs.filter((e) => e.ability === ability).sort((a, b) => a.time - b.time)`. -/
def sameAbilityEvents (allEvents : List Event) (ability : String) : List Event :=
  (allEvents.filter (fun e => e.ability == ability)).insertionSort timeLE

/-- The body of `calculateAdjustedCooldown` with a bound on the depth of the
recursion; `none` means the bound was reached. `i` is the index at which the
loop finds `event.id` (the length when it finds none); for `0 < i < length` the
element `sameAbility[i - 1]` exists, so the first `none` branch is never taken. -/
def calcFuel : Nat → Event → List Event → Option Int
  | 0, _, _ => none
  | fuel + 1, event, allEvents =>
    let sameAbility := sameAbilityEvents allEvents event.ability
    let i := sameAbility.findIdx (fun e => e.id == event.id)
    if i < sameAbility.length ∧ 0 < i then
      match sameAbility[i - 1]? with
      | none => none
      | some prev =>
        match calcFuel fuel prev allEvents with
        | none => none
        | some prevCD =>
          let earliestReady := prev.time + prevCD
          let idleTime := max 0 (event.time - earliestReady)
          let controlCDR := min 15 idleTime
          some (max 0 (event.cooldown - controlCDR))
    else
      some (max 0 (event.cooldown - 15))

/-- The closure `calculateAdjustedCooldown(event, allEvents)`. The recursion
descends one matched index at a time, so `allEvents.length + 1` levels are
always enough (`calcFuel_length_succ`). -/
def calculateAdjustedCooldown (event : Event) (allEvents : List Event) : Int :=
  (calcFuel (allEvents.length + 1) event allEvents).getD 0

/-- The update `xs.map((e) => e.id === id ? { ...e, time: t } : e)`. -/
def setTime (xs : List Event) (id : Nat) (t : Int) : List Event :=
  xs.map (fun e => if e.id == id then { e with time := t } else e)

/-- The inner loop of `updateEventTime` (`for (let j = i + 1; ...)`): `prevS` is
`sameAbilityEvents[j - 1]` and the list holds `sameAbilityEvents[j]`,
`sameAbilityEvents[j + 1]`, ... A `find` that returns `undefined` makes the
body throw, which is `none`. -/
def cascade (prevS : Event) : List Event → List Event → Option (List Event)
  | [], updatedEvents => some updatedEvents
  | nextS :: rest, updatedEvents =>
    match updatedEvents.find? (fun e => e.id == prevS.id),
          updatedEvents.find? (fun e => e.id == nextS.id) with
    | some prev, some next =>
      let prevCD := calculateAdjustedCooldown prev updatedEvents
      let minTime := prev.time + prevCD
      if next.time < minTime then
        cascade nextS rest (setTime updatedEvents next.id minTime)
      else
        cascade nextS rest updatedEvents
    | _, _ => none

/-- The closure `updateEventTime(id, newTime)` over the state `events`; the
result is the snapshot passed to `setEvents`. When `find` returns `undefined`,
`eventToUpdate.ability` is read inside the `filter` callback: on a non-empty
array the callback runs on the first element and throws, on the empty array it
never runs, the loop over the empty `sameAbilityEvents` is skipped and the empty
copy is stored. `i` is the index at which the outer loop finds `id`; when it
finds none the copy of `events` is stored unchanged. -/
def updateEventTime (events : List Event) (id : Nat) (newTime : Int) : Option (List Event) :=
  match events.find? (fun e => e.id == id) with
  | none =>
    match events with
    | [] => some []
    | _ :: _ => none
  | some eventToUpdate =>
    let sameAbility := sameAbilityEvents events eventToUpdate.ability
    let i := sameAbility.findIdx (fun e => e.id == id)
    if i < sameAbility.length then
      let newTime :=
        match (if 0 < i then sameAbility[i - 1]? else none) with
        | some prevEvent =>
          let prevCD := calculateAdjustedCooldown prevEvent events
          let minTime := prevEvent.time + prevCD
          if newTime < minTime then minTime else newTime
        | none => newTime
      match sameAbility[i]? with
      | some cur => cascade cur (sameAbility.drop (i + 1)) (setTime events id newTime)
      | none => none
    else
      some events

/-- The closure `handleInputChange(id, value)` after the text has been parsed:
`seconds` is the parsed number, `none` when the parse gives `NaN`
(`seconds || 0` is then `0`). -/
def handleInputChange (events : List Event) (id : Nat) (seconds : Option Int) :
    Option (List Event) :=
  updateEventTime events id (max 0 (seconds.getD 0))

/-- The time of the event with the given id (`xs.find((e) => e.id === id).time`). -/
def timeOf (snap : List Event) (id : Nat) : Option Int :=
  (snap.find? (fun e => e.id == id)).map (fun e => e.time)

/-- The index at which the loop of `calculateAdjustedCooldown` stops. -/
def matchedIndex (event : Event) (allEvents : List Event) : Nat :=
  (sameAbilityEvents allEvents event.ability).findIdx (fun e => e.id == event.id)

/-- The time `updateEventTime` gives the edited event `e` for the requested time `t`:
`t` raised to the ready time of the predecessor, when there is one. -/
def clampedTime (events : List Event) (e : Event) (t : Int) : Int :=
  match (if 0 < matchedIndex e events then
      (sameAbilityEvents events e.ability)[matchedIndex e events - 1]? else none) with
  | some prevEvent =>
    if t < prevEvent.time + calculateAdjustedCooldown prevEvent events then
      prevEvent.time + calculateAdjustedCooldown prevEvent events
    else t
  | none => t

/-- The event `a` with its time replaced by `σ a`. -/
def withTime (σ : Event → Int) (a : Event) : Event := { a with time := σ a }

/-- The snapshot `events` with every time replaced through `σ`. -/
def retime (σ : Event → Int) (events : List Event) : List Event := events.map (withTime σ)

/-- What a retiming `σ` must satisfy on a pair `a` before `b` of a sorted list for
the stable sort to keep them in this order. -/
def KeepsOrder (σ : Event → Int) (a b : Event) : Prop :=
  σ a ≤ σ b ∧ (a.time < b.time → σ a < σ b)

/-- A snapshot is spaced when, in every ability's time-sorted list, each event
comes no earlier than its predecessor's time plus the predecessor's adjusted
cooldown. Abilities without events have no pairs. -/
def Spaced (snap : List Event) : Prop :=
  ∀ e ∈ snap, ∀ p ∈ (sameAbilityEvents snap e.ability).zip (sameAbilityEvents snap e.ability).tail,
    p.1.time + calculateAdjustedCooldown p.1 snap ≤ p.2.time

instance : DecidablePred Spaced := fun snap =>
  inferInstanceAs (Decidable (∀ e ∈ snap,
    ∀ p ∈ (sameAbilityEvents snap e.ability).zip (sameAbilityEvents snap e.ability).tail,
      p.1.time + calculateAdjustedCooldown p.1 snap ≤ p.2.time))

/-! ### Sample data -/

/-- A "Force of Nature" event as `addEvent` builds it. -/
def fon (id : Nat) (time cooldown : Int) : Event :=
  { id := id, ability := "Force of Nature", time := time, cooldown := cooldown,
    controlOfTheDream := true }

/-- Scenario A after two uses were added: cooldown 60, uses at 0 and 45. -/
def scenarioA : List Event := [fon 1 0 60, fon 2 45 60]

/-- Scenario A with the third use placed at 200. -/
def scenarioA3 : List Event := [fon 1 0 60, fon 2 45 60, fon 3 200 60]

/-- Four uses added in a row, the cooldown choice switched from 60 to 45 after
the second: each use sits exactly at the time `addEvent` suggests. -/
def mixedCooldowns : List Event := [fon 1 0 60, fon 2 45 60, fon 3 105 45, fon 4 150 45]

/-! ### The other closures -/

/-- One entry of `abilities`: an entry of `baseAbilities` with the chosen
cooldown merged in (`charges` is present for "Whirling Stars" only). -/
structure Ability where
  name : String
  baseCooldown : Int
  charges : Option Nat
  controlOfTheDream : Bool
  deriving DecidableEq, Repr

/-- The closure `addEvent(ability)` over the state `events`; `now` is the value
of `Date.now()` and the result is the snapshot passed to `setEvents`. -/
def addEvent (events : List Event) (ability : Ability) (now : Nat) : List Event :=
  let sameAbility := sameAbilityEvents events ability.name
  let suggestedTime : Int :=
    match sameAbility.getLast? with
    | some lastEvent => lastEvent.time + calculateAdjustedCooldown lastEvent events
    | none => 0
  events ++ [{ id := now, ability := ability.name, time := suggestedTime,
               cooldown := ability.baseCooldown,
               controlOfTheDream := ability.controlOfTheDream }]

/-- The closure `removeEvent(id)` over the state `events`. Nothing in its body
can throw, so the snapshot passed to `setEvents` is always there. -/
def removeEvent (events : List Event) (id : Nat) : Option (List Event) :=
  some (events.filter (fun e => e.id != id))

/-- One element of `usageDetails`: `{ ...event, adjustedCD, charge }`. -/
structure UsageDetail where
  event : Event
  adjustedCD : Int
  charge : Nat
  deriving DecidableEq, Repr

/-- The `forEach` of `getWhirlingStarsChargesTimeline`: `c0` and `c1` are
`chargeTimes[0]` and `chargeTimes[1]`, the list holds the events still to
visit, and the result is what the visits push onto `usageDetails`. -/
def chargeLoop (events : List Event) : Int → Int → List Event → List UsageDetail
  | _, _, [] => []
  | c0, c1, event :: rest =>
    let availableChargeIndex : Nat :=
      if c0 ≤ event.time then 0 else if c1 ≤ event.time then 1 else 0
    let adjustedCD := calculateAdjustedCooldown event events
    let entry : UsageDetail :=
      { event := event, adjustedCD := adjustedCD, charge := availableChargeIndex + 1 }
    if availableChargeIndex = 0 then
      entry :: chargeLoop events (event.time + adjustedCD) c1 rest
    else
      entry :: chargeLoop events c0 (event.time + adjustedCD) rest

/-- The closure `getWhirlingStarsChargesTimeline()` over the state `events`. -/
def getWhirlingStarsChargesTimeline (events : List Event) : List UsageDetail :=
  chargeLoop events 0 0 (sameAbilityEvents events "Whirling Stars")

/-- A "Whirling Stars" event as `addEvent` builds it. -/
def ws (id : Nat) (time cooldown : Int) : Event :=
  { id := id, ability := "Whirling Stars", time := time, cooldown := cooldown,
    controlOfTheDream := true }

/-- Scenario B: three uses with stored cooldown 100, inserted at 0, 0 and 50. -/
def scenarioB : List Event := [ws 1 0 100, ws 2 0 100, ws 3 50 100]

/-- The simulation of the charge slots over emitted entries, started from the
pair `r`: after each entry, the slot it was given (`charge 1` is slot 0, `charge 2`
is slot 1) becomes ready at `event.time + adjustedCD`. -/
def slotReadyFrom (r : Int × Int) (entries : List UsageDetail) : Int × Int :=
  entries.foldl (fun r d =>
    if d.charge = 1 then (d.event.time + d.adjustedCD, r.2)
    else (r.1, d.event.time + d.adjustedCD)) r

/-- The pair `chargeReadyAt` after the given entries, started from `[0, 0]`. -/
def chargeReadyAt (entries : List UsageDetail) : Int × Int := slotReadyFrom (0, 0) entries

/-- The charge the slot rule gives an event at `time` when the slots are ready
at `r`: 1 if slot 0 is ready, else 2 if slot 1 is ready, else 1. -/
def slotRule (r : Int × Int) (time : Int) : Nat :=
  if r.1 ≤ time then 1 else if r.2 ≤ time then 2 else 1

/-- The recursion of `calculateAdjustedCooldown` with the value left out: the
number of nested recursive calls the call on `event` makes, `none` when the
bound on the depth is reached. -/
def depthFuel : Nat → Event → List Event → Option Nat
  | 0, _, _ => none
  | fuel + 1, event, allEvents =>
    let sameAbility := sameAbilityEvents allEvents event.ability
    let i := sameAbility.findIdx (fun e => e.id == event.id)
    if i < sameAbility.length ∧ 0 < i then
      match sameAbility[i - 1]? with
      | none => none
      | some prev =>
        match depthFuel fuel prev allEvents with
        | none => none
        | some d => some (d + 1)
    else
      some 0

/-- The number of nested recursive calls of `calculateAdjustedCooldown(event, allEvents)`. -/
def callDepth (event : Event) (allEvents : List Event) : Nat :=
  (depthFuel (allEvents.length + 1) event allEvents).getD 0

/-! ### The calculator along a sorted list -/

/-- The adjusted cooldown of `e` when its predecessor becomes ready at `ready`
(`none`: there is no predecessor and the reduction is 15). -/
def adjOf (ready : Option Int) (e : Event) : Int :=
  max 0 (e.cooldown - (match ready with
    | none => 15
    | some r => min 15 (max 0 (e.time - r))))

/-- The ready time of the last event after the calculator has gone through the
list, `r` being the ready time of the event before the list. -/
def readyAfter (r : Option Int) : List Event → Option Int
  | [] => r
  | a :: rest => readyAfter (some (a.time + adjOf r a)) rest

/-- Every event of the list comes no earlier than the ready time of the event
before it, `r` being the ready time of the event before the list. -/
def spacedFrom (r : Option Int) : List Event → Prop
  | [] => True
  | a :: rest => (∀ ρ, r = some ρ → ρ ≤ a.time) ∧ spacedFrom (some (a.time + adjOf r a)) rest

/-- Order on ready times, `none` (no predecessor) being the least. -/
def ReadyLE : Option Int → Option Int → Prop
  | none, _ => True
  | some a, some b => a ≤ b
  | some _, none => False

/-! # Theorems -/

/-! ## The per-ability list -/

theorem mem_sameAbilityEvents {allEvents : List Event} {ability : String} {a : Event} :
    a ∈ sameAbilityEvents allEvents ability ↔ a ∈ allEvents ∧ a.ability = ability := by
  simp [sameAbilityEvents, List.mem_insertionSort, List.mem_filter]

theorem length_sameAbilityEvents_le (allEvents : List Event) (ability : String) :
    (sameAbilityEvents allEvents ability).length ≤ allEvents.length := by
  unfold sameAbilityEvents
  rw [List.length_insertionSort]
  exact List.length_filter_le _ _

theorem sorted_sameAbilityEvents (allEvents : List Event) (ability : String) :
    (sameAbilityEvents allEvents ability).Sorted timeLE :=
  List.sorted_insertionSort timeLE _

/-- An element found at a position satisfies `findIdx ≤ position`. -/
theorem findIdx_le_of_getElem_some {p : Event → Bool} {xs : List Event} {j : Nat} {a : Event}
    (h : xs[j]? = some a) (hp : p a = true) : xs.findIdx p ≤ j := by
  by_contra hlt
  have hlt2 : j < xs.findIdx p := Nat.lt_of_not_le hlt
  have hf := List.not_of_lt_findIdx hlt2
  obtain ⟨hj, hja⟩ := List.getElem?_eq_some.mp h
  rw [hja, hp] at hf
  exact Bool.noConfusion hf

/-! ## The recursion of `calculateAdjustedCooldown` -/



theorem matchedIndex_prev_le {event prev : Event} {allEvents : List Event}
    (h : (sameAbilityEvents allEvents event.ability)[matchedIndex event allEvents - 1]? = some prev) :
    prev.ability = event.ability ∧ matchedIndex prev allEvents ≤ matchedIndex event allEvents - 1 := by
  have hab : prev.ability = event.ability := (mem_sameAbilityEvents.mp (List.getElem?_mem h)).2
  refine ⟨hab, ?_⟩
  unfold matchedIndex at h ⊢
  rw [hab]
  exact findIdx_le_of_getElem_some h (by simp)

theorem calcFuel_succ (fuel : Nat) (event : Event) (allEvents : List Event) :
    calcFuel (fuel + 1) event allEvents =
      if matchedIndex event allEvents < (sameAbilityEvents allEvents event.ability).length
          ∧ 0 < matchedIndex event allEvents then
        match (sameAbilityEvents allEvents event.ability)[matchedIndex event allEvents - 1]? with
        | none => none
        | some prev =>
          match calcFuel fuel prev allEvents with
          | none => none
          | some prevCD =>
            some (max 0 (event.cooldown - min 15 (max 0 (event.time - (prev.time + prevCD)))))
      else some (max 0 (event.cooldown - 15)) := rfl

/-- Enough fuel gives a result: one level per position below the matched index. -/
theorem calcFuel_total (allEvents : List Event) :
    ∀ (n : Nat) (event : Event), matchedIndex event allEvents ≤ n →
      ∃ v, calcFuel (n + 1) event allEvents = some v := by
  intro n
  induction n with
  | zero =>
    intro event h
    rw [calcFuel_succ]
    have h0 : ¬ (0 < matchedIndex event allEvents) := by omega
    simp [h0]
  | succ m ih =>
    intro event h
    rw [calcFuel_succ]
    split
    · rename_i hc
      have hlt : matchedIndex event allEvents - 1 <
          (sameAbilityEvents allEvents event.ability).length := by omega
      obtain ⟨prev, hprev⟩ : ∃ prev, (sameAbilityEvents allEvents event.ability)[
          matchedIndex event allEvents - 1]? = some prev :=
        ⟨_, List.getElem?_eq_getElem hlt⟩
      have hle := (matchedIndex_prev_le hprev).2
      obtain ⟨v, hv⟩ := ih prev (by omega)
      simp [hprev, hv]
    · exact ⟨_, rfl⟩

/-- More fuel never changes a result. -/
theorem calcFuel_mono (allEvents : List Event) :
    ∀ (n : Nat) (event : Event) (v : Int), calcFuel n event allEvents = some v →
      calcFuel (n + 1) event allEvents = some v := by
  intro n
  induction n with
  | zero => intro event v h; simp [calcFuel] at h
  | succ m ih =>
    intro event v h
    rw [calcFuel_succ] at h ⊢
    split
    · rename_i hc
      rw [if_pos hc] at h
      cases hprev : (sameAbilityEvents allEvents event.ability)[
          matchedIndex event allEvents - 1]? with
      | none => simp [hprev] at h
      | some prev =>
        cases hv : calcFuel m prev allEvents with
        | none => simp [hprev, hv] at h
        | some w =>
          simp only [hprev, hv] at h
          simp only [ih prev w hv]
          exact h
    · rename_i hc
      rw [if_neg hc] at h
      exact h

theorem calcFuel_mono_le (allEvents : List Event) (event : Event) (v : Int) :
    ∀ (n m : Nat), n ≤ m → calcFuel n event allEvents = some v →
      calcFuel m event allEvents = some v := by
  intro n m hnm h
  induction hnm with
  | refl => exact h
  | step _ ih => exact calcFuel_mono allEvents _ event v ih

theorem matchedIndex_le_length (event : Event) (allEvents : List Event) :
    matchedIndex event allEvents ≤ allEvents.length :=
  Nat.le_trans (List.findIdx_le_length _) (length_sameAbilityEvents_le _ _)

/-- The bound used by `calculateAdjustedCooldown` is never reached. -/
theorem calcFuel_length_succ (event : Event) (allEvents : List Event) :
    calcFuel (allEvents.length + 1) event allEvents
      = some (calculateAdjustedCooldown event allEvents) := by
  obtain ⟨v, hv⟩ := calcFuel_total allEvents allEvents.length event
    (matchedIndex_le_length event allEvents)
  simp [calculateAdjustedCooldown, hv]

/-- Any sufficient amount of fuel computes `calculateAdjustedCooldown`. -/
theorem calcFuel_eq_of_le (event : Event) (allEvents : List Event) (n : Nat)
    (h : matchedIndex event allEvents ≤ n) :
    calcFuel (n + 1) event allEvents = some (calculateAdjustedCooldown event allEvents) := by
  obtain ⟨v, hv⟩ := calcFuel_total allEvents n event h
  have h1 := calcFuel_length_succ event allEvents
  rcases Nat.le_total (n + 1) (allEvents.length + 1) with hle | hle
  · rw [calcFuel_mono_le allEvents event v _ _ hle hv] at h1
    rw [hv, h1]
  · exact calcFuel_mono_le allEvents event _ _ _ hle h1

/-- The loop found no predecessor: the full reduction of 15 applies. -/
theorem calculateAdjustedCooldown_of_first {event : Event} {allEvents : List Event}
    (h : ¬ (matchedIndex event allEvents < (sameAbilityEvents allEvents event.ability).length
          ∧ 0 < matchedIndex event allEvents)) :
    calculateAdjustedCooldown event allEvents = max 0 (event.cooldown - 15) := by
  have h1 := calcFuel_length_succ event allEvents
  rw [calcFuel_succ, if_neg h] at h1
  exact (Option.some.inj h1).symm

/-- The loop found the event at a positive index: the reduction is the idle
time after the predecessor became ready, capped at 15. -/
theorem calculateAdjustedCooldown_of_prev {event prev : Event} {allEvents : List Event}
    (hlt : matchedIndex event allEvents < (sameAbilityEvents allEvents event.ability).length)
    (hpos : 0 < matchedIndex event allEvents)
    (hprev : (sameAbilityEvents allEvents event.ability)[matchedIndex event allEvents - 1]?
      = some prev) :
    calculateAdjustedCooldown event allEvents =
      max 0 (event.cooldown - min 15 (max 0 (event.time -
        (prev.time + calculateAdjustedCooldown prev allEvents)))) := by
  have h1 := calcFuel_length_succ event allEvents
  have hle := (matchedIndex_prev_le hprev).2
  have hlen := length_sameAbilityEvents_le allEvents event.ability
  obtain ⟨m, hm⟩ : ∃ m, allEvents.length = m + 1 := ⟨allEvents.length - 1, by omega⟩
  have hp := calcFuel_eq_of_le prev allEvents m (by omega)
  rw [calcFuel_succ, if_pos ⟨hlt, hpos⟩] at h1
  simp only [hprev, hm, hp] at h1
  exact (Option.some.inj h1).symm


/-! ## Distinct ids -/

theorem nodup_ids_sameAbilityEvents {allEvents : List Event} (ability : String)
    (h : (allEvents.map (fun e => e.id)).Nodup) :
    ((sameAbilityEvents allEvents ability).map (fun e => e.id)).Nodup := by
  unfold sameAbilityEvents
  have hp := (List.perm_insertionSort timeLE
    (allEvents.filter (fun e => e.ability == ability))).map (fun e => e.id)
  rw [hp.nodup_iff]
  exact h.sublist (List.filter_sublist _ |>.map _)

/-- With distinct ids the first match of an id is the position of its event. -/
theorem findIdx_id_of_nodup : ∀ {xs : List Event} {i : Nat} {a : Event},
    (xs.map (fun e => e.id)).Nodup → xs[i]? = some a →
      xs.findIdx (fun e => e.id == a.id) = i := by
  intro xs
  induction xs with
  | nil => intro i a _ h; simp at h
  | cons x xs ih =>
    intro i a hnd h
    rw [List.map_cons, List.nodup_cons] at hnd
    rw [List.findIdx_cons]
    cases i with
    | zero =>
      simp only [List.getElem?_cons_zero, Option.some.injEq] at h
      subst h
      simp
    | succ k =>
      simp only [List.getElem?_cons_succ] at h
      have hmem : a.id ∈ xs.map (fun e => e.id) := List.mem_map_of_mem _ (List.getElem?_mem h)
      have hne : x.id ≠ a.id := fun hEq => hnd.1 (hEq ▸ hmem)
      have hb : (x.id == a.id) = false := by simpa using hne
      simp only [hb, cond_false, ih hnd.2 h]

theorem matchedIndex_of_getElem_some {allEvents : List Event} {e : Event} {i : Nat}
    (hids : (allEvents.map (fun e => e.id)).Nodup)
    (he : (sameAbilityEvents allEvents e.ability)[i]? = some e) :
    matchedIndex e allEvents = i :=
  findIdx_id_of_nodup (nodup_ids_sameAbilityEvents e.ability hids) he

/-! ## The calculator: range, recurrence, first use -/

theorem calculateAdjustedCooldown_nonneg (event : Event) (allEvents : List Event) :
    0 ≤ calculateAdjustedCooldown event allEvents := by
  by_cases h : matchedIndex event allEvents < (sameAbilityEvents allEvents event.ability).length
      ∧ 0 < matchedIndex event allEvents
  · obtain ⟨prev, hprev⟩ : ∃ prev, (sameAbilityEvents allEvents event.ability)[
        matchedIndex event allEvents - 1]? = some prev :=
      ⟨_, List.getElem?_eq_getElem (by omega)⟩
    rw [calculateAdjustedCooldown_of_prev h.1 h.2 hprev]
    exact le_max_left _ _
  · rw [calculateAdjustedCooldown_of_first h]
    exact le_max_left _ _

theorem calculateAdjustedCooldown_ge (event : Event) (allEvents : List Event) :
    event.cooldown - 15 ≤ calculateAdjustedCooldown event allEvents := by
  by_cases h : matchedIndex event allEvents < (sameAbilityEvents allEvents event.ability).length
      ∧ 0 < matchedIndex event allEvents
  · obtain ⟨prev, hprev⟩ : ∃ prev, (sameAbilityEvents allEvents event.ability)[
        matchedIndex event allEvents - 1]? = some prev :=
      ⟨_, List.getElem?_eq_getElem (by omega)⟩
    rw [calculateAdjustedCooldown_of_prev h.1 h.2 hprev]
    omega
  · rw [calculateAdjustedCooldown_of_first h]
    omega

/-- C3. For every snapshot and every event whose stored cooldown `c` is not
negative, the adjusted cooldown `a` satisfies `0 ≤ a ≤ c` and `a ≥ c - 15`. -/
theorem calculateAdjustedCooldown_range (event : Event) (allEvents : List Event)
    (hc : 0 ≤ event.cooldown) :
    0 ≤ calculateAdjustedCooldown event allEvents
      ∧ calculateAdjustedCooldown event allEvents ≤ event.cooldown
      ∧ event.cooldown - 15 ≤ calculateAdjustedCooldown event allEvents := by
  refine ⟨calculateAdjustedCooldown_nonneg _ _, ?_, calculateAdjustedCooldown_ge _ _⟩
  by_cases h : matchedIndex event allEvents < (sameAbilityEvents allEvents event.ability).length
      ∧ 0 < matchedIndex event allEvents
  · obtain ⟨prev, hprev⟩ : ∃ prev, (sameAbilityEvents allEvents event.ability)[
        matchedIndex event allEvents - 1]? = some prev :=
      ⟨_, List.getElem?_eq_getElem (by omega)⟩
    rw [calculateAdjustedCooldown_of_prev h.1 h.2 hprev]
    omega
  · rw [calculateAdjustedCooldown_of_first h]
    omega

/-- C4. In a snapshot with pairwise distinct ids, an event `e` at index `i > 0`
of its ability's time-sorted list `S` has adjusted cooldown
`max(0, e.cooldown - min(15, max(0, e.time - (S[i-1].time + adjusted(S[i-1])))))`. -/
theorem calculateAdjustedCooldown_recurrence (events : List Event) (e prev : Event) (i : Nat)
    (hids : (events.map (fun x => x.id)).Nodup)
    (hi : 0 < i)
    (he : (sameAbilityEvents events e.ability)[i]? = some e)
    (hprev : (sameAbilityEvents events e.ability)[i - 1]? = some prev) :
    calculateAdjustedCooldown e events =
      max 0 (e.cooldown - min 15 (max 0 (e.time -
        (prev.time + calculateAdjustedCooldown prev events)))) := by
  have hidx := matchedIndex_of_getElem_some hids he
  have hlt : i < (sameAbilityEvents events e.ability).length :=
    (List.getElem?_eq_some.mp he).1
  exact calculateAdjustedCooldown_of_prev (by omega) (by omega) (by rw [hidx]; exact hprev)

/-- C5. In every snapshot, an event that is first in its ability's time-sorted
list has adjusted cooldown `max(0, cooldown - 15)`, whatever its time and
whatever the other abilities' events are. -/
theorem calculateAdjustedCooldown_first (events : List Event) (e : Event)
    (he : (sameAbilityEvents events e.ability)[0]? = some e) :
    calculateAdjustedCooldown e events = max 0 (e.cooldown - 15) := by
  have h0 : matchedIndex e events ≤ 0 := findIdx_le_of_getElem_some he (by simp)
  exact calculateAdjustedCooldown_of_first (by omega)


/-! ## Snapshots that differ from `events` in times only -/







theorem retime_self (events : List Event) : retime (fun a => a.time) events = events := by
  unfold retime
  conv_rhs => rw [← List.map_id events]
  exact List.map_congr_left (fun a _ => rfl)

theorem setTime_retime (σ : Event → Int) (events : List Event) (id : Nat) (t : Int) :
    setTime (retime σ events) id t
      = retime (fun a => if a.id == id then t else σ a) events := by
  unfold setTime retime
  rw [List.map_map]
  apply List.map_congr_left
  intro a _
  simp only [Function.comp, withTime]
  split <;> rfl

theorem find_retime (σ : Event → Int) (events : List Event) (id : Nat) :
    (retime σ events).find? (fun e => e.id == id)
      = (events.find? (fun e => e.id == id)).map (withTime σ) := by
  unfold retime
  rw [List.find?_map]
  rfl

theorem eq_of_id_eq {events : List Event} (hids : (events.map (fun e => e.id)).Nodup)
    {a b : Event} (ha : a ∈ events) (hb : b ∈ events) (h : a.id = b.id) : a = b :=
  List.inj_on_of_nodup_map hids ha hb h

theorem find_id_of_mem {events : List Event} (hids : (events.map (fun e => e.id)).Nodup)
    {a : Event} (ha : a ∈ events) : events.find? (fun e => e.id == a.id) = some a := by
  cases h : events.find? (fun e => e.id == a.id) with
  | none =>
    have := List.find?_eq_none.mp h a ha
    simp at this
  | some b =>
    have hb := List.mem_of_find?_eq_some h
    have hp := List.find?_some h
    simp only [beq_iff_eq] at hp
    rw [eq_of_id_eq hids hb ha hp]

/-! ## The cascade -/

/-- The cascade over the events `L` that follow `prevS`, started on `events`
retimed by `σ`, returns `events` retimed by some `σ'`: times of events outside
`L` are kept, no time decreases, and along `prevS :: L` each time is at least
the previous one, and at least the previous one plus its stored cooldown
less 15. -/
theorem cascade_retime (events : List Event) (hids : (events.map (fun e => e.id)).Nodup) :
    ∀ (L : List Event) (prevS : Event) (σ : Event → Int),
      prevS ∈ events → (∀ a ∈ L, a ∈ events) → ((prevS :: L).map (fun e => e.id)).Nodup →
      ∃ σ' : Event → Int,
        cascade prevS L (retime σ events) = some (retime σ' events)
        ∧ (∀ a : Event, a.id ∉ L.map (fun e => e.id) → σ' a = σ a)
        ∧ (∀ a ∈ events, σ a ≤ σ' a)
        ∧ List.Chain (fun a b => σ' a ≤ σ' b ∧ σ' a + (a.cooldown - 15) ≤ σ' b) prevS L := by
  intro L
  induction L with
  | nil =>
    intro prevS σ _ _ _
    exact ⟨σ, rfl, fun _ _ => rfl, fun _ _ => le_refl _, List.Chain.nil⟩
  | cons nextS rest ih =>
    intro prevS σ hprev hL hnd
    have hnextMem : nextS ∈ events := hL nextS (List.mem_cons_self _ _)
    have hrestMem : ∀ a ∈ rest, a ∈ events := fun a ha => hL a (List.mem_cons_of_mem _ ha)
    rw [List.map_cons, List.nodup_cons] at hnd
    obtain ⟨hprevNot, hnd'⟩ := hnd
    have hnextNot : nextS.id ∉ rest.map (fun e => e.id) := by
      rw [List.map_cons, List.nodup_cons] at hnd'
      exact hnd'.1
    have hpn : prevS.id ≠ nextS.id := by
      intro hEq
      apply hprevNot
      rw [hEq]
      exact List.mem_map_of_mem _ (List.mem_cons_self _ _)
    have hprevNotRest : prevS.id ∉ rest.map (fun e => e.id) := by
      intro hmem
      apply hprevNot
      rw [List.map_cons]
      exact List.mem_cons_of_mem _ hmem
    have hf1 : (retime σ events).find? (fun e => e.id == prevS.id) = some (withTime σ prevS) := by
      rw [find_retime, find_id_of_mem hids hprev]; rfl
    have hf2 : (retime σ events).find? (fun e => e.id == nextS.id) = some (withTime σ nextS) := by
      rw [find_retime, find_id_of_mem hids hnextMem]; rfl
    have hc0 := calculateAdjustedCooldown_nonneg (withTime σ prevS) (retime σ events)
    have hc1 := calculateAdjustedCooldown_ge (withTime σ prevS) (retime σ events)
    have hcd : (withTime σ prevS).cooldown = prevS.cooldown := rfl
    have hpt : (withTime σ prevS).time = σ prevS := rfl
    have hnt : (withTime σ nextS).time = σ nextS := rfl
    have hnid : (withTime σ nextS).id = nextS.id := rfl
    rw [hcd] at hc1
    by_cases hlt : σ nextS < σ prevS + calculateAdjustedCooldown (withTime σ prevS) (retime σ events)
    · obtain ⟨σ', hres, hframe, hmono, hchain⟩ := ih nextS
        (fun a => if a.id == nextS.id then
          σ prevS + calculateAdjustedCooldown (withTime σ prevS) (retime σ events) else σ a)
        hnextMem hrestMem hnd'
      refine ⟨σ', ?_, ?_, ?_, ?_⟩
      · simp only [cascade, hf1, hf2, hpt, hnt, hnid, if_pos hlt, setTime_retime]
        exact hres
      · intro a ha
        rw [List.map_cons, List.mem_cons, not_or] at ha
        rw [hframe a ha.2]
        have : (a.id == nextS.id) = false := by simpa using ha.1
        simp [this]
      · intro a ha
        refine le_trans ?_ (hmono a ha)
        by_cases hid : a.id = nextS.id
        · have hEq : a = nextS := eq_of_id_eq hids ha hnextMem hid
          subst hEq
          simp
          omega
        · have : (a.id == nextS.id) = false := by simpa using hid
          simp [this]
      · have hp' : σ' prevS = σ prevS := by
          rw [hframe prevS hprevNotRest]
          have : (prevS.id == nextS.id) = false := by simpa using hpn
          simp [this]
        have hn' : σ' nextS = σ prevS
            + calculateAdjustedCooldown (withTime σ prevS) (retime σ events) := by
          rw [hframe nextS hnextNot]
          simp
        exact List.Chain.cons ⟨by omega, by omega⟩ hchain
    · obtain ⟨σ', hres, hframe, hmono, hchain⟩ := ih nextS σ hnextMem hrestMem hnd'
      refine ⟨σ', ?_, ?_, hmono, ?_⟩
      · simp only [cascade, hf1, hf2, hpt, hnt, if_neg hlt]
        exact hres
      · intro a ha
        rw [List.map_cons, List.mem_cons, not_or] at ha
        exact hframe a ha.2
      · have hp' : σ' prevS = σ prevS := hframe prevS hprevNotRest
        have hn' : σ' nextS = σ nextS := hframe nextS hnextNot
        exact List.Chain.cons ⟨by omega, by omega⟩ hchain


/-! ## `updateEventTime` as a clamp followed by the cascade -/

theorem matchedIndex_lt_length {events : List Event} {e : Event} (he : e ∈ events) :
    matchedIndex e events < (sameAbilityEvents events e.ability).length := by
  unfold matchedIndex
  rw [List.findIdx_lt_length]
  exact ⟨e, mem_sameAbilityEvents.mpr ⟨he, rfl⟩, by simp⟩

theorem getElem_matchedIndex_some {events : List Event}
    (hids : (events.map (fun e => e.id)).Nodup) {e : Event} (he : e ∈ events) :
    (sameAbilityEvents events e.ability)[matchedIndex e events]? = some e := by
  have hlt := matchedIndex_lt_length he
  rw [List.getElem?_eq_getElem hlt]
  have hp : ((sameAbilityEvents events e.ability)[matchedIndex e events].id == e.id) = true :=
    List.findIdx_of_getElem?_eq_some (p := fun x : Event => x.id == e.id)
      (List.getElem?_eq_getElem hlt)
  have hmem : (sameAbilityEvents events e.ability)[matchedIndex e events] ∈ events :=
    (mem_sameAbilityEvents.mp (List.getElem_mem _)).1
  rw [eq_of_id_eq hids hmem he (by simpa using hp)]

theorem updateEventTime_eq_cascade {events : List Event}
    (hids : (events.map (fun e => e.id)).Nodup) {e : Event} (he : e ∈ events) (t : Int) :
    updateEventTime events e.id t
      = cascade e ((sameAbilityEvents events e.ability).drop (matchedIndex e events + 1))
          (setTime events e.id (clampedTime events e t)) := by
  have hfind := find_id_of_mem hids he
  have hlt := matchedIndex_lt_length he
  have hget := getElem_matchedIndex_some hids he
  unfold matchedIndex at hlt hget
  unfold updateEventTime
  simp only [hfind, if_pos hlt, hget]
  rfl

/-- With distinct ids, editing the event `e` returns `events` retimed by some
`σ'`: `e` gets `clampedTime`, events that are not after `e` in its ability's
list keep their time, no other time decreases, and from `e` onwards each time
is at least the previous one plus its stored cooldown less 15. -/
theorem updateEventTime_retime {events : List Event}
    (hids : (events.map (fun e => e.id)).Nodup) {e : Event} (he : e ∈ events) (t : Int) :
    ∃ σ' : Event → Int,
      updateEventTime events e.id t = some (retime σ' events)
      ∧ σ' e = clampedTime events e t
      ∧ (∀ a : Event, a.id ∉ ((sameAbilityEvents events e.ability).drop
            (matchedIndex e events)).map (fun x => x.id) → σ' a = a.time)
      ∧ (∀ a ∈ events, a.id ≠ e.id → a.time ≤ σ' a)
      ∧ List.Chain (fun a b => σ' a ≤ σ' b ∧ σ' a + (a.cooldown - 15) ≤ σ' b) e
          ((sameAbilityEvents events e.ability).drop (matchedIndex e events + 1)) := by
  have hget := getElem_matchedIndex_some hids he
  have hlt := matchedIndex_lt_length he
  have hdrop : (sameAbilityEvents events e.ability).drop (matchedIndex e events)
      = e :: (sameAbilityEvents events e.ability).drop (matchedIndex e events + 1) := by
    rw [List.drop_eq_getElem_cons hlt]
    congr 1
    rw [List.getElem?_eq_getElem hlt] at hget
    exact Option.some.inj hget
  have hndS := nodup_ids_sameAbilityEvents e.ability hids
  have hnd : ((e :: (sameAbilityEvents events e.ability).drop
      (matchedIndex e events + 1)).map (fun x => x.id)).Nodup := by
    rw [← hdrop]
    exact hndS.sublist ((List.drop_sublist _ _).map _)
  have hmem : ∀ a ∈ (sameAbilityEvents events e.ability).drop (matchedIndex e events + 1),
      a ∈ events := fun a ha => (mem_sameAbilityEvents.mp (List.mem_of_mem_drop ha)).1
  obtain ⟨σ', hres, hframe, hmono, hchain⟩ := cascade_retime events hids _ e
    (fun a => if a.id == e.id then clampedTime events e t else a.time) he hmem hnd
  have hset : setTime events e.id (clampedTime events e t)
      = retime (fun a => if a.id == e.id then clampedTime events e t else a.time) events := by
    have h := setTime_retime (fun a => a.time) events e.id (clampedTime events e t)
    rw [retime_self] at h
    exact h
  have heNot : e.id ∉ ((sameAbilityEvents events e.ability).drop
      (matchedIndex e events + 1)).map (fun x => x.id) := by
    rw [List.map_cons, List.nodup_cons] at hnd
    exact hnd.1
  refine ⟨σ', ?_, ?_, ?_, ?_, hchain⟩
  · rw [updateEventTime_eq_cascade hids he, hset]
    exact hres
  · rw [hframe e heNot]
    simp
  · intro a ha
    rw [hdrop, List.map_cons, List.mem_cons, not_or] at ha
    rw [hframe a ha.2]
    have : (a.id == e.id) = false := by simpa using ha.1
    simp [this]
  · intro a ha hne
    have h := hmono a ha
    have : (a.id == e.id) = false := by simpa using hne
    simpa [this] using h






theorem timeOf_retime {events : List Event} (hids : (events.map (fun e => e.id)).Nodup)
    (σ : Event → Int) {a : Event} (ha : a ∈ events) :
    timeOf (retime σ events) a.id = some (σ a) := by
  unfold timeOf
  rw [find_retime, find_id_of_mem hids ha]
  rfl

theorem mem_of_getElem_sameAbilityEvents {events : List Event} {ability : String} {i : Nat}
    {a : Event} (h : (sameAbilityEvents events ability)[i]? = some a) : a ∈ events :=
  (mem_sameAbilityEvents.mp (List.getElem?_mem h)).1

theorem le_clampedTime (events : List Event) (e : Event) (t : Int) :
    t ≤ clampedTime events e t := by
  unfold clampedTime
  split
  · split <;> omega
  · exact le_refl _

/-- C6. In a snapshot with pairwise distinct ids, an event `e` with predecessor
`prev` in its ability's time-sorted list ends, after
`updateEventTime(e.id, requestedTime)`, at exactly
`max(requestedTime, prev.time + adjusted(prev))`, the adjusted cooldown being
computed on the snapshot before the call. -/
theorem updateEventTime_clamp_prev (events : List Event) (e prev : Event) (i : Nat)
    (requestedTime : Int)
    (hids : (events.map (fun x => x.id)).Nodup)
    (hi : 0 < i)
    (he : (sameAbilityEvents events e.ability)[i]? = some e)
    (hprev : (sameAbilityEvents events e.ability)[i - 1]? = some prev) :
    ∃ out, updateEventTime events e.id requestedTime = some out
      ∧ timeOf out e.id
          = some (max requestedTime (prev.time + calculateAdjustedCooldown prev events)) := by
  have hmem := mem_of_getElem_sameAbilityEvents he
  have hidx := matchedIndex_of_getElem_some hids he
  obtain ⟨σ', hres, hσe, -, -, -⟩ := updateEventTime_retime hids hmem requestedTime
  refine ⟨_, hres, ?_⟩
  rw [timeOf_retime hids σ' hmem, hσe]
  unfold clampedTime
  rw [hidx, if_pos hi, hprev]
  simp only
  split <;> congr 1 <;> omega

/-- C7 (amended). In a snapshot with pairwise distinct ids, an event `e` that is
first in its ability's time-sorted list ends, after
`updateEventTime(e.id, requestedTime)`, at exactly `requestedTime`, negative
or not; the clamp at zero is made by `handleInputChange`, after which the time
is `max(seconds, 0)`. -/
theorem updateEventTime_first_time (events : List Event) (e : Event) (requestedTime : Int)
    (hids : (events.map (fun x => x.id)).Nodup)
    (he : (sameAbilityEvents events e.ability)[0]? = some e) :
    (∃ out, updateEventTime events e.id requestedTime = some out
        ∧ timeOf out e.id = some requestedTime)
      ∧ (∀ seconds : Option Int, ∃ out, handleInputChange events e.id seconds = some out
        ∧ timeOf out e.id = some (max (seconds.getD 0) 0)) := by
  have hmem := mem_of_getElem_sameAbilityEvents he
  have hidx := matchedIndex_of_getElem_some hids he
  have key : ∀ t : Int, ∃ out, updateEventTime events e.id t = some out
      ∧ timeOf out e.id = some t := by
    intro t
    obtain ⟨σ', hres, hσe, -, -, -⟩ := updateEventTime_retime hids hmem t
    refine ⟨_, hres, ?_⟩
    rw [timeOf_retime hids σ' hmem, hσe]
    unfold clampedTime
    rw [hidx]
    simp
  refine ⟨key requestedTime, ?_⟩
  intro seconds
  obtain ⟨out, h1, h2⟩ := key (max 0 (seconds.getD 0))
  exact ⟨out, h1, by rw [h2, max_comm]⟩

/-- C8 (amended). In a snapshot with pairwise distinct ids whose times are all
`≥ 0`, after `updateEventTime(id, requestedTime)` with `requestedTime ≥ 0` for a
present id, every event's time is still `≥ 0`; no upper bound is kept. -/
theorem updateEventTime_nonneg (events : List Event) (id : Nat) (requestedTime : Int)
    (hids : (events.map (fun x => x.id)).Nodup)
    (hid : id ∈ events.map (fun x => x.id))
    (htimes : ∀ a ∈ events, 0 ≤ a.time)
    (hreq : 0 ≤ requestedTime) :
    ∃ out, updateEventTime events id requestedTime = some out ∧ ∀ b ∈ out, 0 ≤ b.time := by
  obtain ⟨e, hmem, rfl⟩ := List.mem_map.mp hid
  obtain ⟨σ', hres, hσe, -, hmono, -⟩ := updateEventTime_retime hids hmem requestedTime
  refine ⟨_, hres, ?_⟩
  intro b hb
  obtain ⟨a, ha, rfl⟩ := List.mem_map.mp hb
  show 0 ≤ σ' a
  by_cases h : a.id = e.id
  · rw [eq_of_id_eq hids ha hmem h, hσe]
    exact le_trans hreq (le_clampedTime _ _ _)
  · exact le_trans (htimes a ha) (hmono a ha h)

/-- C10. In a snapshot with pairwise distinct ids, `updateEventTime(e.id, t)`
returns a snapshot of the same length whose events keep, position by position,
their id, ability and stored cooldown; events of other abilities and events
before `e` in its ability's time-sorted list keep their time, and events after
`e` in that list keep their time or get a strictly larger one. -/
theorem updateEventTime_frame (events : List Event) (e : Event) (i : Nat) (requestedTime : Int)
    (hids : (events.map (fun x => x.id)).Nodup)
    (he : (sameAbilityEvents events e.ability)[i]? = some e) :
    ∃ out, updateEventTime events e.id requestedTime = some out
      ∧ out.length = events.length
      ∧ ∀ (k : Nat) (a b : Event), events[k]? = some a → out[k]? = some b →
          b.id = a.id ∧ b.ability = a.ability ∧ b.cooldown = a.cooldown
          ∧ b.controlOfTheDream = a.controlOfTheDream
          ∧ (a.ability ≠ e.ability → b.time = a.time)
          ∧ (∀ m : Nat, m < i → (sameAbilityEvents events e.ability)[m]? = some a →
              b.time = a.time)
          ∧ (∀ m : Nat, i < m → (sameAbilityEvents events e.ability)[m]? = some a →
              b.time = a.time ∨ a.time < b.time) := by
  have hmem := mem_of_getElem_sameAbilityEvents he
  have hidx := matchedIndex_of_getElem_some hids he
  have hndS := nodup_ids_sameAbilityEvents e.ability hids
  obtain ⟨σ', hres, -, hframe, hmono, -⟩ := updateEventTime_retime hids hmem requestedTime
  rw [hidx] at hframe
  refine ⟨_, hres, by simp [retime], ?_⟩
  intro k a b hka hkb
  have hb : b = withTime σ' a := by
    simp only [retime, List.getElem?_map, hka, Option.map_some'] at hkb
    exact (Option.some.inj hkb).symm
  have ha : a ∈ events := List.getElem?_mem hka
  subst hb
  refine ⟨rfl, rfl, rfl, rfl, ?_, ?_, ?_⟩
  · intro hab
    show σ' a = a.time
    apply hframe
    intro hin
    obtain ⟨x, hx, hxa⟩ := List.mem_map.mp hin
    have hxS := mem_sameAbilityEvents.mp (List.mem_of_mem_drop hx)
    have := eq_of_id_eq hids hxS.1 ha hxa
    subst this
    exact hab hxS.2
  · intro m hm hma
    show σ' a = a.time
    apply hframe
    intro hin
    obtain ⟨x, hx, hxa⟩ := List.mem_map.mp hin
    obtain ⟨n, hn⟩ := List.mem_iff_getElem?.mp hx
    rw [List.getElem?_drop] at hn
    have hxS := mem_sameAbilityEvents.mp (List.getElem?_mem hn)
    have hEq := eq_of_id_eq hids hxS.1 ha hxa
    subst hEq
    have h1 := findIdx_id_of_nodup hndS hn
    have h2 := findIdx_id_of_nodup hndS hma
    omega
  · intro m hm hma
    show σ' a = a.time ∨ a.time < σ' a
    have hne : a.id ≠ e.id := by
      intro hEq
      have hEq2 := eq_of_id_eq hids ha hmem hEq
      subst hEq2
      have h1 := findIdx_id_of_nodup hndS he
      have h2 := findIdx_id_of_nodup hndS hma
      omega
    have := hmono a ha hne
    omega


/-! ## Sorting a retimed list -/



theorem orderedInsert_withTime (σ : Event → Int) (a : Event) :
    ∀ S : List Event, (S.orderedInsert timeLE a).Pairwise (KeepsOrder σ) →
      (S.map (withTime σ)).orderedInsert timeLE (withTime σ a)
        = (S.orderedInsert timeLE a).map (withTime σ) := by
  intro S
  induction S with
  | nil => intro _; rfl
  | cons b S ih =>
    intro hp
    by_cases hab : timeLE a b
    · rw [List.orderedInsert_of_le timeLE S hab] at hp ⊢
      have hq : KeepsOrder σ a b := (List.pairwise_cons.mp hp).1 b (List.mem_cons_self _ _)
      have hab' : timeLE (withTime σ a) (withTime σ b) := hq.1
      rw [List.map_cons, List.orderedInsert_of_le timeLE _ hab']
      rfl
    · have hins : (b :: S).orderedInsert timeLE a = b :: S.orderedInsert timeLE a := by
        simp [List.orderedInsert, hab]
      rw [hins] at hp ⊢
      obtain ⟨hhead, htail⟩ := List.pairwise_cons.mp hp
      have hq : KeepsOrder σ b a := hhead a ((List.mem_orderedInsert timeLE).mpr (Or.inl rfl))
      have hlt : b.time < a.time := Int.lt_of_not_ge hab
      have hab' : ¬ timeLE (withTime σ a) (withTime σ b) := Int.not_le.mpr (hq.2 hlt)
      have hins' : (withTime σ b :: S.map (withTime σ)).orderedInsert timeLE (withTime σ a)
          = withTime σ b :: (S.map (withTime σ)).orderedInsert timeLE (withTime σ a) := by
        simp [List.orderedInsert, hab']
      rw [List.map_cons, hins', ih htail, List.map_cons]

theorem insertionSort_withTime (σ : Event → Int) :
    ∀ l : List Event, (l.insertionSort timeLE).Pairwise (KeepsOrder σ) →
      (l.map (withTime σ)).insertionSort timeLE = (l.insertionSort timeLE).map (withTime σ) := by
  intro l
  induction l with
  | nil => intro _; rfl
  | cons a l ih =>
    intro hp
    rw [List.insertionSort] at hp
    have hsub := List.sublist_orderedInsert (r := timeLE) a (l.insertionSort timeLE)
    rw [List.map_cons, List.insertionSort, ih (hp.sublist hsub), List.insertionSort]
    exact orderedInsert_withTime σ a _ hp

theorem sameAbilityEvents_retime (σ : Event → Int) (events : List Event) (ability : String)
    (hp : (sameAbilityEvents events ability).Pairwise (KeepsOrder σ)) :
    sameAbilityEvents (retime σ events) ability
      = (sameAbilityEvents events ability).map (withTime σ) := by
  unfold sameAbilityEvents retime at *
  rw [List.filter_map]
  exact insertionSort_withTime σ _ hp

/-- A sorted list on which `σ` is the stored time keeps its order. -/
theorem keepsOrder_of_unchanged {σ : Event → Int} {S : List Event} (hs : S.Sorted timeLE)
    (hσ : ∀ a ∈ S, σ a = a.time) : S.Pairwise (KeepsOrder σ) := by
  refine List.Pairwise.imp_of_mem ?_ hs
  intro a b ha hb hab
  unfold KeepsOrder
  rw [hσ a ha, hσ b hb]
  exact ⟨hab, fun h => h⟩

/-- The chain left by the cascade is strictly increasing when every stored
cooldown exceeds 15. -/
theorem strict_of_chain {σ : Event → Int} :
    ∀ (L : List Event) (a : Event),
      List.Chain (fun a b => σ a ≤ σ b ∧ σ a + (a.cooldown - 15) ≤ σ b) a L →
      (∀ x ∈ a :: L, 15 < x.cooldown) →
      (a :: L).Pairwise (fun x y => σ x < σ y) := by
  intro L
  induction L with
  | nil => intro a _ _; exact List.pairwise_singleton _ _
  | cons b L ih =>
    intro a hc hcd
    rw [List.chain_cons] at hc
    have hb := ih b hc.2 (fun x hx => hcd x (List.mem_cons_of_mem _ hx))
    have ha := hcd a (List.mem_cons_self _ _)
    have hab : σ a < σ b := by have := hc.1.2; omega
    rw [List.pairwise_cons]
    refine ⟨?_, hb⟩
    intro x hx
    rcases List.mem_cons.mp hx with rfl | hx'
    · exact hab
    · exact lt_trans hab ((List.pairwise_cons.mp hb).1 x hx')


/-- Every event before the edited one in its list is strictly earlier than the
clamped time, when stored cooldowns exceed 15. -/
theorem lt_clampedTime_of_mem_take {events : List Event} {e : Event} (he : e ∈ events)
    (hcd : ∀ a ∈ events, 15 < a.cooldown) (t : Int) :
    ∀ a ∈ (sameAbilityEvents events e.ability).take (matchedIndex e events),
      a.time < clampedTime events e t := by
  have hlt := matchedIndex_lt_length he
  have hs := sorted_sameAbilityEvents events e.ability
  unfold clampedTime
  cases hi : matchedIndex e events with
  | zero => intro a ha; simp at ha
  | succ j =>
    rw [hi] at hlt
    have hj : j < (sameAbilityEvents events e.ability).length := by omega
    have hget : (sameAbilityEvents events e.ability)[j]?
        = some (sameAbilityEvents events e.ability)[j] := List.getElem?_eq_getElem hj
    have hpmem : (sameAbilityEvents events e.ability)[j] ∈ events :=
      mem_of_getElem_sameAbilityEvents hget
    have hc := calculateAdjustedCooldown_ge (sameAbilityEvents events e.ability)[j] events
    have hc2 := hcd _ hpmem
    have hle : ∀ a ∈ (sameAbilityEvents events e.ability).take (j + 1),
        a.time ≤ ((sameAbilityEvents events e.ability)[j]).time := by
      intro a ha
      rw [List.take_succ, hget, Option.toList_some, List.mem_append] at ha
      rcases ha with ha | ha
      · have hsplit := List.take_append_drop j (sameAbilityEvents events e.ability)
        rw [List.drop_eq_getElem_cons hj] at hsplit
        rw [← hsplit] at hs
        exact (List.pairwise_append.mp hs).2.2 a ha _ (List.mem_cons_self _ _)
      · rw [List.mem_singleton.mp ha]
    intro a ha
    have h1 := hle a ha
    simp only [Nat.zero_lt_succ, if_true, Nat.add_sub_cancel, hget]
    split <;> omega

/-- C9 (amended). In a snapshot with pairwise distinct ids whose stored cooldowns
all exceed 15, `updateEventTime(id, requestedTime)` for a present id leaves, for
every ability, the sequence of ids of its events stably sorted by time
unchanged. -/
theorem updateEventTime_order (events : List Event) (id : Nat) (requestedTime : Int)
    (hids : (events.map (fun x => x.id)).Nodup)
    (hid : id ∈ events.map (fun x => x.id))
    (hcd : ∀ a ∈ events, 15 < a.cooldown) :
    ∃ out, updateEventTime events id requestedTime = some out
      ∧ ∀ ability : String,
          (sameAbilityEvents out ability).map (fun x => x.id)
            = (sameAbilityEvents events ability).map (fun x => x.id) := by
  obtain ⟨e, hmem, rfl⟩ := List.mem_map.mp hid
  obtain ⟨σ', hres, hσe, hframe, -, hchain⟩ := updateEventTime_retime hids hmem requestedTime
  refine ⟨_, hres, ?_⟩
  intro ability
  suffices hp : (sameAbilityEvents events ability).Pairwise (KeepsOrder σ') by
    rw [sameAbilityEvents_retime σ' events ability hp, List.map_map]
    exact List.map_congr_left (fun _ _ => rfl)
  by_cases hab : ability = e.ability
  · subst hab
    have hlt := matchedIndex_lt_length hmem
    have hget := getElem_matchedIndex_some hids hmem
    have hdrop : (sameAbilityEvents events e.ability).drop (matchedIndex e events)
        = e :: (sameAbilityEvents events e.ability).drop (matchedIndex e events + 1) := by
      rw [List.drop_eq_getElem_cons hlt]
      congr 1
      rw [List.getElem?_eq_getElem hlt] at hget
      exact Option.some.inj hget
    have hs := sorted_sameAbilityEvents events e.ability
    have hndS := nodup_ids_sameAbilityEvents e.ability hids
    rw [← List.take_append_drop (matchedIndex e events) (sameAbilityEvents events e.ability),
      List.map_append] at hndS
    have hdisj := (List.nodup_append.mp hndS).2.2
    have htake : ∀ a ∈ (sameAbilityEvents events e.ability).take (matchedIndex e events),
        σ' a = a.time := by
      intro a ha
      apply hframe
      intro hin
      exact hdisj (List.mem_map_of_mem _ ha) hin
    have hstrict := strict_of_chain _ e hchain (by
      intro x hx
      rw [← hdrop] at hx
      exact hcd x (mem_sameAbilityEvents.mp (List.mem_of_mem_drop hx)).1)
    have key : ((sameAbilityEvents events e.ability).take (matchedIndex e events)
        ++ e :: (sameAbilityEvents events e.ability).drop (matchedIndex e events + 1)).Pairwise
          (KeepsOrder σ') := by
      refine List.pairwise_append.mpr ⟨?_, ?_, ?_⟩
      · exact keepsOrder_of_unchanged (hs.sublist (List.take_sublist _ _)) htake
      · exact hstrict.imp (fun h => ⟨le_of_lt h, fun _ => h⟩)
      · intro a ha b hb
        have h1 := lt_clampedTime_of_mem_take hmem hcd requestedTime a ha
        rw [← hσe] at h1
        have h2 : σ' e ≤ σ' b := by
          rcases List.mem_cons.mp hb with rfl | hb'
          · exact le_refl _
          · exact le_of_lt ((List.pairwise_cons.mp hstrict).1 b hb')
        have h3 : σ' a < σ' b := by rw [htake a ha]; omega
        exact ⟨le_of_lt h3, fun _ => h3⟩
    rw [← hdrop, List.take_append_drop] at key
    exact key
  · refine keepsOrder_of_unchanged (sorted_sameAbilityEvents events ability) ?_
    intro a ha
    apply hframe
    intro hin
    obtain ⟨x, hx, hxa⟩ := List.mem_map.mp hin
    have hxS := mem_sameAbilityEvents.mp (List.mem_of_mem_drop hx)
    have haS := mem_sameAbilityEvents.mp ha
    have hEq := eq_of_id_eq hids hxS.1 haS.1 hxa
    subst hEq
    exact hab (haS.2.symm.trans hxS.2)

/-! ## The cascade on mixed cooldowns -/

/-- C1. Evaluation at `mixedCooldowns`, a spaced snapshot with distinct ids,
times and cooldowns `≥ 0`: after `updateEventTime(1, 100)` the third event sits
at 210 with adjusted cooldown 40, and the fourth at 240, before 250: the result
is not spaced. -/
theorem updateEventTime_breaks_spacing :
    (mixedCooldowns.map (fun x => x.id)).Nodup
      ∧ (∀ a ∈ mixedCooldowns, 0 ≤ a.time ∧ 0 ≤ a.cooldown)
      ∧ 1 ∈ mixedCooldowns.map (fun x => x.id)
      ∧ Spaced mixedCooldowns
      ∧ updateEventTime mixedCooldowns 1 100
          = some [fon 1 100 60, fon 2 150 60, fon 3 210 45, fon 4 240 45]
      ∧ calculateAdjustedCooldown (fon 3 210 45)
          [fon 1 100 60, fon 2 150 60, fon 3 210 45, fon 4 240 45] = 40
      ∧ ¬ Spaced [fon 1 100 60, fon 2 150 60, fon 3 210 45, fon 4 240 45] := by
  decide

/-- C2. Evaluation at `mixedCooldowns`: `updateEventTime(1, 100)` applied to its
own result moves the fourth event from 240 to 250, so the second call does not
return the snapshot of the first. -/
theorem updateEventTime_twice_differs :
    updateEventTime mixedCooldowns 1 100
        = some [fon 1 100 60, fon 2 150 60, fon 3 210 45, fon 4 240 45]
      ∧ updateEventTime [fon 1 100 60, fon 2 150 60, fon 3 210 45, fon 4 240 45] 1 100
        = some [fon 1 100 60, fon 2 150 60, fon 3 210 45, fon 4 250 45]
      ∧ (updateEventTime mixedCooldowns 1 100).bind (fun s => updateEventTime s 1 100)
        ≠ updateEventTime mixedCooldowns 1 100 := by
  decide

/-! ## Instances -/

/-- C3 at the second use of Scenario A: cooldown 60, adjusted cooldown within
`[45, 60]`. -/
theorem calculateAdjustedCooldown_range_witness :
    0 ≤ (fon 2 45 60).cooldown
      ∧ (0 ≤ calculateAdjustedCooldown (fon 2 45 60) scenarioA3
        ∧ calculateAdjustedCooldown (fon 2 45 60) scenarioA3 ≤ (fon 2 45 60).cooldown
        ∧ (fon 2 45 60).cooldown - 15 ≤ calculateAdjustedCooldown (fon 2 45 60) scenarioA3) :=
  ⟨by decide, calculateAdjustedCooldown_range (fon 2 45 60) scenarioA3 (by decide)⟩

/-- C4 at the third use of Scenario A, index 2, predecessor the second use. -/
theorem calculateAdjustedCooldown_recurrence_witness :
    (scenarioA3.map (fun x => x.id)).Nodup
      ∧ 0 < 2
      ∧ (sameAbilityEvents scenarioA3 (fon 3 200 60).ability)[2]? = some (fon 3 200 60)
      ∧ (sameAbilityEvents scenarioA3 (fon 3 200 60).ability)[2 - 1]? = some (fon 2 45 60)
      ∧ calculateAdjustedCooldown (fon 3 200 60) scenarioA3 =
          max 0 ((fon 3 200 60).cooldown - min 15 (max 0 ((fon 3 200 60).time -
            ((fon 2 45 60).time + calculateAdjustedCooldown (fon 2 45 60) scenarioA3)))) :=
  ⟨by decide, by decide, by decide, by decide,
    calculateAdjustedCooldown_recurrence scenarioA3 (fon 3 200 60) (fon 2 45 60) 2
      (by decide) (by decide) (by decide) (by decide)⟩

/-- C5 at the first use of Scenario A: adjusted cooldown `max(0, 60 - 15)`. -/
theorem calculateAdjustedCooldown_first_witness :
    (sameAbilityEvents scenarioA3 (fon 1 0 60).ability)[0]? = some (fon 1 0 60)
      ∧ calculateAdjustedCooldown (fon 1 0 60) scenarioA3 = max 0 ((fon 1 0 60).cooldown - 15) :=
  ⟨by decide, calculateAdjustedCooldown_first scenarioA3 (fon 1 0 60) (by decide)⟩

/-- C6 at Scenario A: the second use requested at 40 ends at `max(40, 0 + 45) = 45`;
the third use, added at 105 and placed at 200, keeps 200 and has adjusted
cooldown 45. -/
theorem updateEventTime_clamp_prev_witness :
    ((scenarioA.map (fun x => x.id)).Nodup
      ∧ 0 < 1
      ∧ (sameAbilityEvents scenarioA (fon 2 45 60).ability)[1]? = some (fon 2 45 60)
      ∧ (sameAbilityEvents scenarioA (fon 2 45 60).ability)[1 - 1]? = some (fon 1 0 60))
      ∧ (∃ out, updateEventTime scenarioA (fon 2 45 60).id 40 = some out
          ∧ timeOf out (fon 2 45 60).id
            = some (max 40 ((fon 1 0 60).time + calculateAdjustedCooldown (fon 1 0 60) scenarioA)))
      ∧ max 40 ((fon 1 0 60).time + calculateAdjustedCooldown (fon 1 0 60) scenarioA) = 45
      ∧ updateEventTime [fon 1 0 60, fon 2 45 60, fon 3 105 60] 3 200 = some scenarioA3
      ∧ calculateAdjustedCooldown (fon 3 200 60) scenarioA3 = 45 :=
  ⟨⟨by decide, by decide, by decide, by decide⟩,
    updateEventTime_clamp_prev scenarioA (fon 2 45 60) (fon 1 0 60) 1 40
      (by decide) (by decide) (by decide) (by decide),
    by decide, by decide, by decide⟩

/-- C7 fails as stated: the only event of a snapshot, requested at `-5`, ends at
`-5`, not at `max(-5, 0) = 0`. -/
theorem updateEventTime_first_negative :
    ([fon 1 10 60].map (fun x => x.id)).Nodup
      ∧ (sameAbilityEvents [fon 1 10 60] (fon 1 10 60).ability)[0]? = some (fon 1 10 60)
      ∧ updateEventTime [fon 1 10 60] (fon 1 10 60).id (-5) = some [fon 1 (-5) 60]
      ∧ timeOf [fon 1 (-5) 60] (fon 1 10 60).id = some (-5)
      ∧ timeOf [fon 1 (-5) 60] (fon 1 10 60).id ≠ some (max (-5) 0) := by
  decide

/-- C7 (amended) at the first use of Scenario A, requested at `-5`. -/
theorem updateEventTime_first_time_witness :
    ((scenarioA.map (fun x => x.id)).Nodup
      ∧ (sameAbilityEvents scenarioA (fon 1 0 60).ability)[0]? = some (fon 1 0 60))
      ∧ ((∃ out, updateEventTime scenarioA (fon 1 0 60).id (-5) = some out
          ∧ timeOf out (fon 1 0 60).id = some (-5))
        ∧ (∀ seconds : Option Int, ∃ out,
            handleInputChange scenarioA (fon 1 0 60).id seconds = some out
            ∧ timeOf out (fon 1 0 60).id = some (max (seconds.getD 0) 0))) :=
  ⟨⟨by decide, by decide⟩,
    updateEventTime_first_time scenarioA (fon 1 0 60) (-5) (by decide) (by decide)⟩

/-- C8 fails as stated: with `timelineLength = 300` and both times inside
`[0, 300]`, moving the first use to 300 pushes the second one to 360. -/
theorem updateEventTime_exceeds_timeline :
    ([fon 1 0 60, fon 2 290 60].map (fun x => x.id)).Nodup
      ∧ (∀ a ∈ [fon 1 0 60, fon 2 290 60], 0 ≤ a.time ∧ a.time ≤ 300)
      ∧ 1 ∈ [fon 1 0 60, fon 2 290 60].map (fun x => x.id)
      ∧ updateEventTime [fon 1 0 60, fon 2 290 60] 1 300 = some [fon 1 300 60, fon 2 360 60]
      ∧ ¬ (∀ b ∈ [fon 1 300 60, fon 2 360 60], 0 ≤ b.time ∧ b.time ≤ 300) := by
  decide

/-- C8 (amended) at the same edit: every time stays `≥ 0`. -/
theorem updateEventTime_nonneg_witness :
    (([fon 1 0 60, fon 2 290 60].map (fun x => x.id)).Nodup
      ∧ 1 ∈ [fon 1 0 60, fon 2 290 60].map (fun x => x.id)
      ∧ (∀ a ∈ [fon 1 0 60, fon 2 290 60], 0 ≤ a.time)
      ∧ (0 : Int) ≤ 300)
      ∧ ∃ out, updateEventTime [fon 1 0 60, fon 2 290 60] 1 300 = some out
          ∧ ∀ b ∈ out, 0 ≤ b.time :=
  ⟨⟨by decide, by decide, by decide, by decide⟩,
    updateEventTime_nonneg [fon 1 0 60, fon 2 290 60] 1 300
      (by decide) (by decide) (by decide) (by decide)⟩

/-- C9 fails as stated: with stored cooldown 10 the adjusted cooldowns are 0; the
event with id 2, first in time order, is moved to 50 and the other one is
pushed to 50 as well, where its earlier position in the snapshot puts it
first. -/
theorem updateEventTime_reorders_ties :
    ([fon 1 20 10, fon 2 0 10].map (fun x => x.id)).Nodup
      ∧ (∀ a ∈ [fon 1 20 10, fon 2 0 10], 0 ≤ a.cooldown)
      ∧ 2 ∈ [fon 1 20 10, fon 2 0 10].map (fun x => x.id)
      ∧ updateEventTime [fon 1 20 10, fon 2 0 10] 2 50 = some [fon 1 50 10, fon 2 50 10]
      ∧ (sameAbilityEvents [fon 1 20 10, fon 2 0 10] "Force of Nature").map (fun x => x.id)
          = [2, 1]
      ∧ (sameAbilityEvents [fon 1 50 10, fon 2 50 10] "Force of Nature").map (fun x => x.id)
          = [1, 2] := by
  decide

/-- C9 (amended) at `mixedCooldowns`, first use moved to 100. -/
theorem updateEventTime_order_witness :
    ((mixedCooldowns.map (fun x => x.id)).Nodup
      ∧ 1 ∈ mixedCooldowns.map (fun x => x.id)
      ∧ (∀ a ∈ mixedCooldowns, 15 < a.cooldown))
      ∧ ∃ out, updateEventTime mixedCooldowns 1 100 = some out
          ∧ ∀ ability : String,
              (sameAbilityEvents out ability).map (fun x => x.id)
                = (sameAbilityEvents mixedCooldowns ability).map (fun x => x.id) :=
  ⟨⟨by decide, by decide, by decide⟩,
    updateEventTime_order mixedCooldowns 1 100 (by decide) (by decide) (by decide)⟩

/-- C10 at Scenario A with three uses, the second one moved to 300. -/
theorem updateEventTime_frame_witness :
    ((scenarioA3.map (fun x => x.id)).Nodup
      ∧ (sameAbilityEvents scenarioA3 (fon 2 45 60).ability)[1]? = some (fon 2 45 60))
      ∧ ∃ out, updateEventTime scenarioA3 (fon 2 45 60).id 300 = some out
          ∧ out.length = scenarioA3.length
          ∧ ∀ (k : Nat) (a b : Event), scenarioA3[k]? = some a → out[k]? = some b →
              b.id = a.id ∧ b.ability = a.ability ∧ b.cooldown = a.cooldown
              ∧ b.controlOfTheDream = a.controlOfTheDream
              ∧ (a.ability ≠ (fon 2 45 60).ability → b.time = a.time)
              ∧ (∀ m : Nat, m < 1 →
                  (sameAbilityEvents scenarioA3 (fon 2 45 60).ability)[m]? = some a →
                  b.time = a.time)
              ∧ (∀ m : Nat, 1 < m →
                  (sameAbilityEvents scenarioA3 (fon 2 45 60).ability)[m]? = some a →
                  b.time = a.time ∨ a.time < b.time) :=
  ⟨⟨by decide, by decide⟩,
    updateEventTime_frame scenarioA3 (fon 2 45 60) 1 300 (by decide) (by decide)⟩


/-! ## The charge timeline -/

theorem chargeLoop_cons (events : List Event) (c0 c1 : Int) (event : Event) (rest : List Event) :
    chargeLoop events c0 c1 (event :: rest)
      = { event := event, adjustedCD := calculateAdjustedCooldown event events,
          charge := slotRule (c0, c1) event.time }
        :: chargeLoop events
            (if slotRule (c0, c1) event.time = 1
              then event.time + calculateAdjustedCooldown event events else c0)
            (if slotRule (c0, c1) event.time = 1
              then c1 else event.time + calculateAdjustedCooldown event events) rest := by
  simp only [chargeLoop, slotRule]
  by_cases h0 : c0 ≤ event.time
  · simp [h0]
  · by_cases h1 : c1 ≤ event.time
    · simp [h0, h1]
    · simp [h0, h1]

theorem map_event_chargeLoop (events : List Event) :
    ∀ (L : List Event) (c0 c1 : Int), (chargeLoop events c0 c1 L).map (fun d => d.event) = L := by
  intro L
  induction L with
  | nil => intro c0 c1; rfl
  | cons event rest ih =>
    intro c0 c1
    rw [chargeLoop_cons, List.map_cons, ih]

theorem adjustedCD_chargeLoop (events : List Event) :
    ∀ (L : List Event) (c0 c1 : Int), ∀ d ∈ chargeLoop events c0 c1 L,
      d.adjustedCD = calculateAdjustedCooldown d.event events := by
  intro L
  induction L with
  | nil => intro c0 c1 d hd; simp [chargeLoop] at hd
  | cons event rest ih =>
    intro c0 c1 d hd
    rw [chargeLoop_cons, List.mem_cons] at hd
    rcases hd with rfl | hd
    · rfl
    · exact ih _ _ d hd

theorem slotReadyFrom_cons (r : Int × Int) (d : UsageDetail) (entries : List UsageDetail) :
    slotReadyFrom r (d :: entries)
      = slotReadyFrom (if d.charge = 1 then (d.event.time + d.adjustedCD, r.2)
          else (r.1, d.event.time + d.adjustedCD)) entries := rfl

theorem charge_chargeLoop (events : List Event) :
    ∀ (L : List Event) (c0 c1 : Int) (pre : List UsageDetail) (d : UsageDetail)
      (post : List UsageDetail), chargeLoop events c0 c1 L = pre ++ d :: post →
      d.charge = slotRule (slotReadyFrom (c0, c1) pre) d.event.time := by
  intro L
  induction L with
  | nil => intro c0 c1 pre d post h; simp [chargeLoop] at h
  | cons event rest ih =>
    intro c0 c1 pre d post h
    rw [chargeLoop_cons] at h
    cases pre with
    | nil =>
      simp only [List.nil_append, List.cons.injEq] at h
      rw [← h.1]
      rfl
    | cons p pre =>
      simp only [List.cons_append, List.cons.injEq] at h
      obtain ⟨hp, hrest⟩ := h
      have := ih _ _ pre d post hrest
      rw [slotReadyFrom_cons, ← hp]
      simp only
      by_cases h1 : slotRule (c0, c1) event.time = 1
      · simp only [h1, if_true] at this ⊢
        exact this
      · simp only [h1, if_false] at this ⊢
        exact this

/-- C11. `getWhirlingStarsChargesTimeline` returns one entry per "Whirling Stars"
event in stable time order, each with `adjustedCD` the event's adjusted cooldown;
with `chargeReadyAt` simulated from `[0, 0]` over the entries before it, an entry
has charge 1 if slot 0 is ready, else charge 2 if slot 1 is ready, else charge 1;
hence its slot is ready after `event.time` only when both slots are, and it is
then charge 1. -/
theorem getWhirlingStarsChargesTimeline_slots (events : List Event) :
    (getWhirlingStarsChargesTimeline events).map (fun d => d.event)
        = sameAbilityEvents events "Whirling Stars"
      ∧ (∀ d ∈ getWhirlingStarsChargesTimeline events,
          d.adjustedCD = calculateAdjustedCooldown d.event events)
      ∧ (∀ (pre : List UsageDetail) (d : UsageDetail) (post : List UsageDetail),
          getWhirlingStarsChargesTimeline events = pre ++ d :: post →
            d.charge = (if (chargeReadyAt pre).1 ≤ d.event.time then 1
              else if (chargeReadyAt pre).2 ≤ d.event.time then 2 else 1)
            ∧ (d.event.time < (if d.charge = 1 then (chargeReadyAt pre).1
                  else (chargeReadyAt pre).2) →
                d.event.time < (chargeReadyAt pre).1 ∧ d.event.time < (chargeReadyAt pre).2
                ∧ d.charge = 1)) := by
  refine ⟨map_event_chargeLoop events _ 0 0, adjustedCD_chargeLoop events _ 0 0, ?_⟩
  intro pre d post h
  have hc := charge_chargeLoop events _ 0 0 pre d post h
  have hrule : d.charge = (if (chargeReadyAt pre).1 ≤ d.event.time then 1
      else if (chargeReadyAt pre).2 ≤ d.event.time then 2 else 1) := hc
  refine ⟨hrule, ?_⟩
  intro hbusy
  by_cases h0 : (chargeReadyAt pre).1 ≤ d.event.time
  · rw [if_pos h0] at hrule
    rw [if_pos hrule] at hbusy
    omega
  · by_cases h1 : (chargeReadyAt pre).2 ≤ d.event.time
    · rw [if_neg h0, if_pos h1] at hrule
      rw [if_neg (by omega)] at hbusy
      omega
    · rw [if_neg h0, if_neg h1] at hrule
      exact ⟨by omega, by omega, hrule⟩

/-- C12 fails as stated: in Scenario B the second entry has adjusted cooldown 100,
not 85. -/
theorem scenarioB_second_not_85 :
    (getWhirlingStarsChargesTimeline scenarioB)[1]?
        = some { event := ws 2 0 100, adjustedCD := 100, charge := 2 }
      ∧ ((getWhirlingStarsChargesTimeline scenarioB)[1]?).map (fun d => d.adjustedCD)
        ≠ some 85 := by
  decide

/-- C12 (amended). In Scenario B the first event gets charge 1 with adjusted
cooldown 85 (ready at 85), the second charge 2 with reduction 0, adjusted
cooldown 100 (ready at 100), and the third charge 1, both slots being busy at
50. -/
theorem scenarioB_timeline :
    getWhirlingStarsChargesTimeline scenarioB
        = [{ event := ws 1 0 100, adjustedCD := 85, charge := 1 },
           { event := ws 2 0 100, adjustedCD := 100, charge := 2 },
           { event := ws 3 50 100, adjustedCD := 100, charge := 1 }]
      ∧ chargeReadyAt [{ event := ws 1 0 100, adjustedCD := 85, charge := 1 }] = (85, 0)
      ∧ chargeReadyAt [{ event := ws 1 0 100, adjustedCD := 85, charge := 1 },
           { event := ws 2 0 100, adjustedCD := 100, charge := 2 }] = (85, 100)
      ∧ (getWhirlingStarsChargesTimeline scenarioB).map
          (fun d => d.event.cooldown - d.adjustedCD) = [15, 0, 0] := by
  decide

/-! ## `addEvent`, `removeEvent` and unknown ids -/

/-- C13. `addEvent(ability)` returns the snapshot with exactly one event appended
and the existing events unchanged; the new event has the ability's name and base
cooldown, and its time is 0 when the snapshot has no event of that ability,
otherwise `last.time + adjusted(last)` for the last event of that ability's
time-sorted list. -/
theorem addEvent_appends (events : List Event) (ability : Ability) (now : Nat) :
    ∃ newEvent : Event, addEvent events ability now = events ++ [newEvent]
      ∧ newEvent.id = now
      ∧ newEvent.ability = ability.name
      ∧ newEvent.cooldown = ability.baseCooldown
      ∧ ((∀ e ∈ events, e.ability ≠ ability.name) → newEvent.time = 0)
      ∧ (∀ last : Event,
          (sameAbilityEvents events ability.name)[(sameAbilityEvents events ability.name).length - 1]?
              = some last →
            newEvent.time = last.time + calculateAdjustedCooldown last events) := by
  refine ⟨_, rfl, rfl, rfl, rfl, ?_, ?_⟩
  · intro hnone
    have hnil : sameAbilityEvents events ability.name = [] := by
      rw [List.eq_nil_iff_forall_not_mem]
      intro a ha
      have := mem_sameAbilityEvents.mp ha
      exact hnone a this.1 this.2
    simp [hnil]
  · intro last hlast
    have hlen : (sameAbilityEvents events ability.name).length - 1
        < (sameAbilityEvents events ability.name).length := (List.getElem?_eq_some.mp hlast).1
    have hget : (sameAbilityEvents events ability.name).getLast? = some last := by
      rw [List.getLast?_eq_getElem?]
      exact hlast
    simp [hget]

theorem map_id_setTime (xs : List Event) (id : Nat) (t : Int) :
    (setTime xs id t).map (fun e => e.id) = xs.map (fun e => e.id) := by
  unfold setTime
  rw [List.map_map]
  apply List.map_congr_left
  intro a _
  simp only [Function.comp]
  split <;> rfl

theorem find_isSome_of_id_mem {xs : List Event} {id : Nat}
    (h : id ∈ xs.map (fun e => e.id)) : ∃ a, xs.find? (fun e => e.id == id) = some a := by
  obtain ⟨a, ha, rfl⟩ := List.mem_map.mp h
  cases hf : xs.find? (fun e => e.id == a.id) with
  | none =>
    have := List.find?_eq_none.mp hf a ha
    simp at this
  | some b => exact ⟨b, rfl⟩

/-- The cascade does not throw when every id it looks up is in the snapshot. -/
theorem cascade_isSome :
    ∀ (L : List Event) (prevS : Event) (updatedEvents : List Event),
      prevS.id ∈ updatedEvents.map (fun e => e.id) →
      (∀ a ∈ L, a.id ∈ updatedEvents.map (fun e => e.id)) →
      ∃ out, cascade prevS L updatedEvents = some out := by
  intro L
  induction L with
  | nil => intro prevS U _ _; exact ⟨U, rfl⟩
  | cons nextS rest ih =>
    intro prevS U hp hL
    obtain ⟨prev, hprev⟩ := find_isSome_of_id_mem hp
    obtain ⟨next, hnext⟩ := find_isSome_of_id_mem (hL nextS (List.mem_cons_self _ _))
    have hrest : ∀ a ∈ rest, a.id ∈ U.map (fun e => e.id) :=
      fun a ha => hL a (List.mem_cons_of_mem _ ha)
    simp only [cascade, hprev, hnext]
    split
    · apply ih
      · rw [map_id_setTime]; exact hL nextS (List.mem_cons_self _ _)
      · intro a ha; rw [map_id_setTime]; exact hrest a ha
    · exact ih nextS U (hL nextS (List.mem_cons_self _ _)) hrest

/-- C15 fails as stated: on the empty snapshot no event has the id 1, and
`updateEventTime(1, 0)` does not fail: it stores the empty snapshot. -/
theorem updateEventTime_empty_completes :
    1 ∉ ([] : List Event).map (fun e => e.id)
      ∧ updateEventTime [] 1 0 = some []
      ∧ updateEventTime [] 1 0 ≠ none := by
  decide

/-- C15 (amended). For an id that no event of the snapshot has, `updateEventTime`
fails when the snapshot is not empty (the call throws before `setEvents`, so the
stored collection is not replaced) and on the empty snapshot it completes and
stores the empty snapshot again; for an id that some event has, it returns a
snapshot. -/
theorem updateEventTime_unknown_id (events : List Event) (id : Nat) (requestedTime : Int) :
    (id ∉ events.map (fun e => e.id) → events ≠ [] →
        updateEventTime events id requestedTime = none)
      ∧ updateEventTime [] id requestedTime = some []
      ∧ (id ∈ events.map (fun e => e.id) →
          ∃ out, updateEventTime events id requestedTime = some out) := by
  refine ⟨?_, rfl, ?_⟩
  · intro hid hne
    have hfind : events.find? (fun e => e.id == id) = none := by
      rw [List.find?_eq_none]
      intro a ha hEq
      exact hid (List.mem_map.mpr ⟨a, ha, by simpa using hEq⟩)
    cases events with
    | nil => exact absurd rfl hne
    | cons a rest => simp only [updateEventTime, hfind]
  · intro hid
    obtain ⟨e, hfind⟩ := find_isSome_of_id_mem hid
    have he : e ∈ events := List.mem_of_find?_eq_some hfind
    have heid : e.id = id := by simpa using List.find?_some hfind
    have hlt : (sameAbilityEvents events e.ability).findIdx (fun x => x.id == id)
        < (sameAbilityEvents events e.ability).length := by
      rw [List.findIdx_lt_length]
      exact ⟨e, mem_sameAbilityEvents.mpr ⟨he, rfl⟩, by simpa using heid⟩
    have hget := List.getElem?_eq_getElem hlt
    have hcur : (sameAbilityEvents events e.ability)[
        (sameAbilityEvents events e.ability).findIdx (fun x => x.id == id)] ∈ events :=
      (mem_sameAbilityEvents.mp (List.getElem_mem _)).1
    simp only [updateEventTime, hfind, if_pos hlt, hget]
    apply cascade_isSome
    · rw [map_id_setTime]
      exact List.mem_map_of_mem _ hcur
    · intro a ha
      rw [map_id_setTime]
      exact List.mem_map_of_mem _ (mem_sameAbilityEvents.mp (List.mem_of_mem_drop ha)).1

/-- C16 fails as stated: `removeEvent` with an id that no event has completes
normally and stores the same events. -/
theorem removeEvent_unknown_completes :
    7 ∉ scenarioA.map (fun e => e.id)
      ∧ removeEvent scenarioA 7 ≠ none
      ∧ removeEvent scenarioA 7 = some scenarioA := by
  decide

/-- C16 (amended). For an id that no event of the snapshot has, `removeEvent(id)`
completes normally: it raises no error and stores a snapshot equal to the old
one. -/
theorem removeEvent_unknown_id (events : List Event) (id : Nat)
    (hid : id ∉ events.map (fun e => e.id)) :
    removeEvent events id = some events := by
  unfold removeEvent
  congr 1
  rw [List.filter_eq_self]
  intro a ha
  have : a.id ≠ id := fun hEq => hid (List.mem_map.mpr ⟨a, ha, hEq⟩)
  simpa using this

/-- C16 (amended) at Scenario A and the unused id 7. -/
theorem removeEvent_unknown_id_witness :
    7 ∉ scenarioA.map (fun e => e.id) ∧ removeEvent scenarioA 7 = some scenarioA :=
  ⟨by decide, removeEvent_unknown_id scenarioA 7 (by decide)⟩

/-! ## Charges in a spaced snapshot -/

theorem charge_one_chargeLoop (events : List Event) :
    ∀ (L : List Event) (c0 c1 : Int),
      (∀ h, L.head? = some h → c0 ≤ h.time) →
      (∀ p ∈ L.zip L.tail, p.1.time + calculateAdjustedCooldown p.1 events ≤ p.2.time) →
      ∀ d ∈ chargeLoop events c0 c1 L, d.charge = 1 := by
  intro L
  induction L with
  | nil => intro c0 c1 _ _ d hd; simp [chargeLoop] at hd
  | cons event rest ih =>
    intro c0 c1 hhead hpairs d hd
    have h0 : c0 ≤ event.time := hhead event rfl
    have hrule : slotRule (c0, c1) event.time = 1 := by simp [slotRule, h0]
    rw [chargeLoop_cons, hrule, List.mem_cons] at hd
    rcases hd with rfl | hd
    · rfl
    · simp only [if_true] at hd
      refine ih _ _ ?_ ?_ d hd
      · intro h hh
        cases rest with
        | nil => simp at hh
        | cons nxt rest' =>
          simp only [List.head?_cons, Option.some.injEq] at hh
          subst hh
          exact hpairs (event, nxt) (by simp)
      · intro p hp
        apply hpairs
        cases rest with
        | nil => simp at hp
        | cons nxt rest' =>
          simp only [List.tail_cons] at hp ⊢
          rw [List.zip_cons_cons]
          exact List.mem_cons_of_mem _ hp

/-- C19. In a snapshot whose event times are `≥ 0` and whose consecutive
"Whirling Stars" events, stably sorted by time, satisfy
`next.time ≥ prev.time + adjusted(prev)`, every entry of
`getWhirlingStarsChargesTimeline` has charge 1. Distinct ids are not needed. -/
theorem getWhirlingStarsChargesTimeline_charge_one (events : List Event)
    (htimes : ∀ e ∈ events, 0 ≤ e.time)
    (hspaced : ∀ p ∈ (sameAbilityEvents events "Whirling Stars").zip
        (sameAbilityEvents events "Whirling Stars").tail,
        p.1.time + calculateAdjustedCooldown p.1 events ≤ p.2.time) :
    ∀ d ∈ getWhirlingStarsChargesTimeline events, d.charge = 1 := by
  refine charge_one_chargeLoop events _ 0 0 ?_ hspaced
  intro h hh
  exact htimes h (mem_sameAbilityEvents.mp (List.mem_of_mem_head? hh)).1

/-- C19 at three spaced "Whirling Stars" uses. -/
theorem getWhirlingStarsChargesTimeline_charge_one_witness :
    ((∀ e ∈ [ws 1 0 100, ws 2 85 100, ws 3 200 100], 0 ≤ e.time)
      ∧ (∀ p ∈ (sameAbilityEvents [ws 1 0 100, ws 2 85 100, ws 3 200 100] "Whirling Stars").zip
          (sameAbilityEvents [ws 1 0 100, ws 2 85 100, ws 3 200 100] "Whirling Stars").tail,
          p.1.time + calculateAdjustedCooldown p.1 [ws 1 0 100, ws 2 85 100, ws 3 200 100]
            ≤ p.2.time))
      ∧ ∀ d ∈ getWhirlingStarsChargesTimeline [ws 1 0 100, ws 2 85 100, ws 3 200 100],
          d.charge = 1 :=
  ⟨⟨by decide, by decide⟩,
    getWhirlingStarsChargesTimeline_charge_one [ws 1 0 100, ws 2 85 100, ws 3 200 100]
      (by decide) (by decide)⟩

/-! ## Depth of the recursion -/

theorem depthFuel_succ (fuel : Nat) (event : Event) (allEvents : List Event) :
    depthFuel (fuel + 1) event allEvents =
      if matchedIndex event allEvents < (sameAbilityEvents allEvents event.ability).length
          ∧ 0 < matchedIndex event allEvents then
        match (sameAbilityEvents allEvents event.ability)[matchedIndex event allEvents - 1]? with
        | none => none
        | some prev =>
          match depthFuel fuel prev allEvents with
          | none => none
          | some d => some (d + 1)
      else some 0 := rfl

/-- The depth counter and the calculator stop at the same bounds. -/
theorem depthFuel_isSome_iff (allEvents : List Event) :
    ∀ (n : Nat) (event : Event),
      (depthFuel n event allEvents).isSome = (calcFuel n event allEvents).isSome := by
  intro n
  induction n with
  | zero => intro event; rfl
  | succ m ih =>
    intro event
    rw [depthFuel_succ, calcFuel_succ]
    split
    · cases hprev : (sameAbilityEvents allEvents event.ability)[
          matchedIndex event allEvents - 1]? with
      | none => rfl
      | some prev =>
        have := ih prev
        cases hd : depthFuel m prev allEvents <;> cases hc : calcFuel m prev allEvents <;>
          simp_all
    · rfl

/-- A depth that is found is below the bound, and is found with any larger bound. -/
theorem depthFuel_some (allEvents : List Event) :
    ∀ (n : Nat) (event : Event) (d : Nat), depthFuel n event allEvents = some d →
      d < n ∧ d ≤ matchedIndex event allEvents
        ∧ ∀ m, d < m → depthFuel m event allEvents = some d := by
  intro n
  induction n with
  | zero => intro event d h; simp [depthFuel] at h
  | succ k ih =>
    intro event d h
    rw [depthFuel_succ] at h
    split at h
    · rename_i hc
      cases hprev : (sameAbilityEvents allEvents event.ability)[
          matchedIndex event allEvents - 1]? with
      | none => simp [hprev] at h
      | some prev =>
        cases hd : depthFuel k prev allEvents with
        | none => simp [hprev, hd] at h
        | some d' =>
          simp only [hprev, hd, Option.some.injEq] at h
          subst h
          obtain ⟨h1, h2, h3⟩ := ih prev d' hd
          have hle := (matchedIndex_prev_le hprev).2
          refine ⟨by omega, by omega, ?_⟩
          intro m hm
          obtain ⟨m', rfl⟩ : ∃ m', m = m' + 1 := ⟨m - 1, by omega⟩
          rw [depthFuel_succ, if_pos hc]
          simp only [hprev, h3 m' (by omega)]
    · rename_i hc
      simp only [Option.some.injEq] at h
      subst h
      refine ⟨by omega, by omega, ?_⟩
      intro m hm
      obtain ⟨m', rfl⟩ : ∃ m', m = m' + 1 := ⟨m - 1, by omega⟩
      rw [depthFuel_succ, if_neg hc]

theorem depthFuel_callDepth (event : Event) (allEvents : List Event) :
    depthFuel (allEvents.length + 1) event allEvents = some (callDepth event allEvents) := by
  obtain ⟨v, hv⟩ := calcFuel_total allEvents allEvents.length event
    (matchedIndex_le_length event allEvents)
  have h := depthFuel_isSome_iff allEvents (allEvents.length + 1) event
  rw [hv] at h
  cases hd : depthFuel (allEvents.length + 1) event allEvents with
  | none => rw [hd] at h; simp at h
  | some d => simp [callDepth, hd]

theorem callDepth_of_first {event : Event} {allEvents : List Event}
    (h : ¬ (matchedIndex event allEvents < (sameAbilityEvents allEvents event.ability).length
          ∧ 0 < matchedIndex event allEvents)) :
    callDepth event allEvents = 0 := by
  have h1 := depthFuel_callDepth event allEvents
  rw [depthFuel_succ, if_neg h] at h1
  exact (Option.some.inj h1).symm

theorem callDepth_of_prev {event prev : Event} {allEvents : List Event}
    (hlt : matchedIndex event allEvents < (sameAbilityEvents allEvents event.ability).length)
    (hpos : 0 < matchedIndex event allEvents)
    (hprev : (sameAbilityEvents allEvents event.ability)[matchedIndex event allEvents - 1]?
      = some prev) :
    callDepth event allEvents = callDepth prev allEvents + 1 := by
  have h1 := depthFuel_callDepth event allEvents
  rw [depthFuel_succ, if_pos ⟨hlt, hpos⟩] at h1
  simp only [hprev] at h1
  cases hd : depthFuel allEvents.length prev allEvents with
  | none => simp [hd] at h1
  | some d =>
    simp only [hd, Option.some.injEq] at h1
    have h2 := (depthFuel_some allEvents _ prev d hd).2.2 (allEvents.length + 1) (by
      have := (depthFuel_some allEvents _ prev d hd).1
      omega)
    rw [depthFuel_callDepth] at h2
    have h3 := Option.some.inj h2
    omega

theorem callDepth_eq_index {allEvents : List Event}
    (hids : (allEvents.map (fun e => e.id)).Nodup) :
    ∀ (i : Nat) (event : Event),
      (sameAbilityEvents allEvents event.ability)[i]? = some event →
      callDepth event allEvents = i := by
  intro i
  induction i with
  | zero =>
    intro event he
    have hidx := matchedIndex_of_getElem_some hids he
    exact callDepth_of_first (by omega)
  | succ k ih =>
    intro event he
    have hidx := matchedIndex_of_getElem_some hids he
    have hlt : k + 1 < (sameAbilityEvents allEvents event.ability).length :=
      (List.getElem?_eq_some.mp he).1
    have hk : k < (sameAbilityEvents allEvents event.ability).length := by omega
    have hprev : (sameAbilityEvents allEvents event.ability)[matchedIndex event allEvents - 1]?
        = some (sameAbilityEvents allEvents event.ability)[k] := by
      rw [hidx]
      exact List.getElem?_eq_getElem hk
    have hab := (matchedIndex_prev_le hprev).1
    rw [callDepth_of_prev (by omega) (by omega) hprev]
    have hprev' : (sameAbilityEvents allEvents
        ((sameAbilityEvents allEvents event.ability)[k]).ability)[k]?
        = some (sameAbilityEvents allEvents event.ability)[k] := by
      rw [hab]
      exact List.getElem?_eq_getElem hk
    rw [ih _ hprev']

/-- C17. For every snapshot, duplicate ids allowed, and every event,
`calculateAdjustedCooldown` returns: the bound `allEvents.length + 1` is never
reached, and a bound `n` is enough exactly when it exceeds `callDepth`. Each
recursive call is on the element just before the matched index, whose ability
list is the same list, and adds one level; so the depth is at most the index of
the event in its ability's time-sorted list, and equals it when ids are
pairwise distinct. -/
theorem calculateAdjustedCooldown_terminates (event : Event) (allEvents : List Event) :
    (∃ v, calcFuel (allEvents.length + 1) event allEvents = some v)
      ∧ (∀ n : Nat, (calcFuel n event allEvents).isSome = true ↔ callDepth event allEvents < n)
      ∧ (∀ prev : Event,
          matchedIndex event allEvents < (sameAbilityEvents allEvents event.ability).length →
          0 < matchedIndex event allEvents →
          (sameAbilityEvents allEvents event.ability)[matchedIndex event allEvents - 1]?
            = some prev →
          sameAbilityEvents allEvents prev.ability = sameAbilityEvents allEvents event.ability
            ∧ callDepth event allEvents = callDepth prev allEvents + 1)
      ∧ (∀ i : Nat, (sameAbilityEvents allEvents event.ability)[i]? = some event →
          callDepth event allEvents ≤ i)
      ∧ ((allEvents.map (fun e => e.id)).Nodup →
          ∀ i : Nat, (sameAbilityEvents allEvents event.ability)[i]? = some event →
            callDepth event allEvents = i) := by
  have hD := depthFuel_callDepth event allEvents
  have hsome := depthFuel_some allEvents _ event _ hD
  refine ⟨⟨_, calcFuel_length_succ event allEvents⟩, ?_, ?_, ?_, ?_⟩
  · intro n
    rw [← depthFuel_isSome_iff]
    constructor
    · intro h
      cases hn : depthFuel n event allEvents with
      | none => rw [hn] at h; simp at h
      | some d =>
        have h1 := depthFuel_some allEvents n event d hn
        rcases Nat.lt_or_ge d (allEvents.length + 1) with hlt | hge
        · have h2 := h1.2.2 _ hlt
          rw [hD] at h2
          have := Option.some.inj h2
          omega
        · have h2 := hsome.2.2 n (by omega)
          rw [hn] at h2
          have := Option.some.inj h2
          omega
    · intro h
      rw [hsome.2.2 n h]
      rfl
  · intro prev hlt hpos hprev
    refine ⟨?_, callDepth_of_prev hlt hpos hprev⟩
    rw [(matchedIndex_prev_le hprev).1]
  · intro i he
    have := findIdx_le_of_getElem_some (p := fun e => e.id == event.id) he (by simp)
    have h2 := hsome.2.1
    unfold matchedIndex at h2
    omega
  · intro hids i he
    exact callDepth_eq_index hids i event he

/-! ## The calculator along a sorted list -/

theorem readyAfter_append (r : Option Int) (l₁ l₂ : List Event) :
    readyAfter r (l₁ ++ l₂) = readyAfter (readyAfter r l₁) l₂ := by
  induction l₁ generalizing r with
  | nil => rfl
  | cons a l ih => exact ih _

theorem spacedFrom_append (r : Option Int) (l₁ l₂ : List Event) :
    spacedFrom r (l₁ ++ l₂) ↔ spacedFrom r l₁ ∧ spacedFrom (readyAfter r l₁) l₂ := by
  induction l₁ generalizing r with
  | nil => simp [spacedFrom, readyAfter]
  | cons a l ih =>
    show (_ ∧ spacedFrom _ (l ++ l₂)) ↔ (_ ∧ spacedFrom _ l) ∧ spacedFrom (readyAfter _ l) l₂
    rw [ih, and_assoc]

theorem adjOf_nonneg (r : Option Int) (e : Event) : 0 ≤ adjOf r e := le_max_left _ _

theorem adjOf_ge (r : Option Int) (e : Event) : e.cooldown - 15 ≤ adjOf r e := by
  unfold adjOf
  cases r <;> simp only <;> omega

theorem adjOf_le (r : Option Int) (e : Event) (h : 0 ≤ e.cooldown) : adjOf r e ≤ e.cooldown := by
  unfold adjOf
  cases r <;> simp only <;> omega

theorem adjOf_mono {r r' : Option Int} (h : ReadyLE r r') (e : Event) :
    adjOf r e ≤ adjOf r' e := by
  unfold adjOf
  cases r with
  | none => cases r' <;> simp only <;> omega
  | some a =>
    cases r' with
    | none => exact absurd h (by simp [ReadyLE])
    | some b =>
      have hab : a ≤ b := h
      simp only
      omega

theorem readyLE_refl (r : Option Int) : ReadyLE r r := by
  cases r with
  | none => trivial
  | some a => exact le_refl a

/-- With distinct ids, the adjusted cooldown of an event is computed from the
events before it in its ability's time-sorted list alone. -/
theorem calculateAdjustedCooldown_eq_adjOf {allEvents : List Event}
    (hids : (allEvents.map (fun e => e.id)).Nodup) :
    ∀ (n : Nat) (pre : List Event) (x : Event) (post : List Event), pre.length = n →
      sameAbilityEvents allEvents x.ability = pre ++ x :: post →
      calculateAdjustedCooldown x allEvents = adjOf (readyAfter none pre) x := by
  intro n
  induction n with
  | zero =>
    intro pre x post hn hS
    have hpre : pre = [] := List.length_eq_zero.mp hn
    subst hpre
    have hx : (sameAbilityEvents allEvents x.ability)[0]? = some x := by rw [hS]; simp
    have h0 : matchedIndex x allEvents ≤ 0 := findIdx_le_of_getElem_some hx (by simp)
    rw [calculateAdjustedCooldown_of_first (by omega)]
    rfl
  | succ k ih =>
    intro pre x post hn hS
    obtain ⟨pre', p, rfl⟩ : ∃ pre' p, pre = pre' ++ [p] := by
      rcases List.eq_nil_or_concat pre with h | ⟨L, b, h⟩
      · rw [h] at hn; simp at hn
      · exact ⟨L, b, by rw [h]; simp⟩
    have hlen : pre'.length = k := by simpa using hn
    have hx : (sameAbilityEvents allEvents x.ability)[k + 1]? = some x := by
      rw [hS, List.getElem?_append_right (by simp [hlen])]
      simp [hlen]
    have hp : (sameAbilityEvents allEvents x.ability)[k]? = some p := by
      rw [hS, List.append_assoc, List.getElem?_append_right (by omega)]
      simp [hlen]
    have hidx := matchedIndex_of_getElem_some hids hx
    have hlt : k + 1 < (sameAbilityEvents allEvents x.ability).length :=
      (List.getElem?_eq_some.mp hx).1
    have hprev : (sameAbilityEvents allEvents x.ability)[matchedIndex x allEvents - 1]?
        = some p := by rw [hidx]; exact hp
    have hab := (matchedIndex_prev_le hprev).1
    rw [calculateAdjustedCooldown_of_prev (by omega) (by omega) hprev]
    have hSp : sameAbilityEvents allEvents p.ability = pre' ++ p :: (x :: post) := by
      rw [hab, hS]; simp
    rw [ih pre' p (x :: post) hlen hSp, readyAfter_append]
    rfl

/-- The pairs condition of `Spaced` on a suffix of an ability's list, read along
the list. -/
theorem pairs_iff_spacedFrom {allEvents : List Event}
    (hids : (allEvents.map (fun e => e.id)).Nodup) :
    ∀ (rest pre : List Event) (a : Event),
      sameAbilityEvents allEvents a.ability = pre ++ a :: rest →
      ((∀ p ∈ (a :: rest).zip rest,
          p.1.time + calculateAdjustedCooldown p.1 allEvents ≤ p.2.time)
        ↔ spacedFrom (some (a.time + adjOf (readyAfter none pre) a)) rest) := by
  intro rest
  induction rest with
  | nil => intro pre a _; simp [spacedFrom]
  | cons b rest ih =>
    intro pre a hS
    have hb : b.ability = a.ability :=
      (mem_sameAbilityEvents.mp (by rw [hS]; simp : b ∈ sameAbilityEvents allEvents a.ability)).2
    have hS' : sameAbilityEvents allEvents b.ability = (pre ++ [a]) ++ b :: rest := by
      rw [hb, hS]; simp
    have hih := ih (pre ++ [a]) b hS'
    rw [readyAfter_append] at hih
    have hcalc := calculateAdjustedCooldown_eq_adjOf hids pre.length pre a (b :: rest) rfl hS
    simp only [List.zip_cons_cons, List.forall_mem_cons, spacedFrom, hcalc]
    rw [hih]
    simp [readyAfter]

theorem pairs_iff_spacedFrom_none {allEvents : List Event}
    (hids : (allEvents.map (fun e => e.id)).Nodup) (ability : String) :
    (∀ p ∈ (sameAbilityEvents allEvents ability).zip (sameAbilityEvents allEvents ability).tail,
        p.1.time + calculateAdjustedCooldown p.1 allEvents ≤ p.2.time)
      ↔ spacedFrom none (sameAbilityEvents allEvents ability) := by
  cases hS : sameAbilityEvents allEvents ability with
  | nil => simp [spacedFrom]
  | cons a rest =>
    have ha : a.ability = ability :=
      (mem_sameAbilityEvents.mp (by rw [hS]; simp : a ∈ sameAbilityEvents allEvents ability)).2
    have h := pairs_iff_spacedFrom hids rest [] a (by rw [ha, hS]; rfl)
    simp only [List.tail_cons, spacedFrom]
    rw [h]
    simp [readyAfter]

/-! ## Removing events -/

theorem orderedInsert_of_forall_le (a : Event) :
    ∀ M : List Event, (∀ c ∈ M, timeLE a c) → M.orderedInsert timeLE a = a :: M := by
  intro M h
  cases M with
  | nil => rfl
  | cons c M => exact List.orderedInsert_of_le timeLE M (h c (List.mem_cons_self _ _))

theorem filter_orderedInsert_pos (q : Event → Bool) (a : Event) (ha : q a = true) :
    ∀ L : List Event, L.Sorted timeLE →
      (L.orderedInsert timeLE a).filter q = (L.filter q).orderedInsert timeLE a := by
  intro L
  induction L with
  | nil => intro _; simp [ha]
  | cons b L ih =>
    intro hs
    have hsL : L.Sorted timeLE := hs.of_cons
    have hbL : ∀ c ∈ L, timeLE b c := List.rel_of_sorted_cons hs
    by_cases hab : timeLE a b
    · rw [List.orderedInsert_of_le timeLE L hab, List.filter_cons_of_pos ha]
      symm
      apply orderedInsert_of_forall_le
      intro c hc
      have hc' := (List.mem_filter.mp hc).1
      rcases List.mem_cons.mp hc' with rfl | hcL
      · exact hab
      · exact Int.le_trans hab (hbL c hcL)
    · have hins : (b :: L).orderedInsert timeLE a = b :: L.orderedInsert timeLE a := by
        simp [List.orderedInsert, hab]
      rw [hins]
      by_cases hb : q b = true
      · rw [List.filter_cons_of_pos hb, List.filter_cons_of_pos hb, ih hsL]
        simp [List.orderedInsert, hab]
      · rw [List.filter_cons_of_neg hb, List.filter_cons_of_neg hb, ih hsL]

theorem filter_orderedInsert_neg (q : Event → Bool) (a : Event) (ha : ¬ q a = true) :
    ∀ L : List Event, (L.orderedInsert timeLE a).filter q = L.filter q := by
  intro L
  induction L with
  | nil => simp [ha]
  | cons b L ih =>
    by_cases hab : timeLE a b
    · rw [List.orderedInsert_of_le timeLE L hab, List.filter_cons_of_neg ha]
    · have hins : (b :: L).orderedInsert timeLE a = b :: L.orderedInsert timeLE a := by
        simp [List.orderedInsert, hab]
      rw [hins]
      by_cases hb : q b = true
      · rw [List.filter_cons_of_pos hb, List.filter_cons_of_pos hb, ih]
      · rw [List.filter_cons_of_neg hb, List.filter_cons_of_neg hb, ih]

/-- The stable sort commutes with a filter. -/
theorem filter_insertionSort (q : Event → Bool) :
    ∀ l : List Event, (l.insertionSort timeLE).filter q = (l.filter q).insertionSort timeLE := by
  intro l
  induction l with
  | nil => rfl
  | cons a l ih =>
    rw [List.insertionSort]
    by_cases ha : q a = true
    · rw [filter_orderedInsert_pos q a ha _ (List.sorted_insertionSort timeLE l), ih,
        List.filter_cons_of_pos ha, List.insertionSort]
    · rw [filter_orderedInsert_neg q a ha, ih, List.filter_cons_of_neg ha]

theorem sameAbilityEvents_filter (q : Event → Bool) (events : List Event) (ability : String) :
    sameAbilityEvents (events.filter q) ability = (sameAbilityEvents events ability).filter q := by
  unfold sameAbilityEvents
  rw [filter_insertionSort, List.filter_filter, List.filter_filter]
  congr 2
  funext a
  exact Bool.and_comm _ _

/-- Leaving events out of a spaced list keeps it spaced and makes no ready time
later. -/
theorem spacedFrom_filter (q : Event → Bool) :
    ∀ (L : List Event) (r r' : Option Int), ReadyLE r' r → spacedFrom r L →
      spacedFrom r' (L.filter q) ∧ ReadyLE (readyAfter r' (L.filter q)) (readyAfter r L) := by
  intro L
  induction L with
  | nil => intro r r' h _; exact ⟨trivial, h⟩
  | cons a rest ih =>
    intro r r' h hs
    obtain ⟨hcheck, hrest⟩ := hs
    by_cases ha : q a = true
    · rw [List.filter_cons_of_pos ha]
      have hmono := adjOf_mono h a
      obtain ⟨h1, h2⟩ := ih (some (a.time + adjOf r a)) (some (a.time + adjOf r' a))
        (by show a.time + adjOf r' a ≤ a.time + adjOf r a; omega) hrest
      refine ⟨⟨?_, h1⟩, h2⟩
      intro ρ' hρ'
      subst hρ'
      cases r with
      | none => exact absurd h (by simp [ReadyLE])
      | some ρ =>
        have h3 : ρ' ≤ ρ := h
        have := hcheck ρ rfl
        omega
    · rw [List.filter_cons_of_neg ha]
      apply ih _ _ _ hrest
      cases r' with
      | none => trivial
      | some ρ' =>
        cases r with
        | none => exact absurd h (by simp [ReadyLE])
        | some ρ =>
          have h3 : ρ' ≤ ρ := h
          have := hcheck ρ rfl
          have := adjOf_nonneg (some ρ) a
          show ρ' ≤ a.time + adjOf (some ρ) a
          omega

theorem nodup_ids_filter {events : List Event} (q : Event → Bool)
    (hids : (events.map (fun e => e.id)).Nodup) :
    ((events.filter q).map (fun e => e.id)).Nodup :=
  hids.sublist ((List.filter_sublist _).map _)

/-- An event at a position of a list splits the list there. -/
theorem split_of_getElem_some {S : List Event} {i : Nat} {a : Event} (h : S[i]? = some a) :
    S = S.take i ++ a :: S.drop (i + 1) := by
  obtain ⟨hi, ha⟩ := List.getElem?_eq_some.mp h
  conv_lhs => rw [← List.take_append_drop i S, List.drop_eq_getElem_cons hi, ha]

/-- The adjusted cooldown after a filter, for an event that stays. -/
theorem calculateAdjustedCooldown_filter {events : List Event}
    (hids : (events.map (fun e => e.id)).Nodup) (q : Event → Bool)
    {pre post : List Event} {a : Event} (ha : q a = true)
    (hS : sameAbilityEvents events a.ability = pre ++ a :: post) :
    calculateAdjustedCooldown a events = adjOf (readyAfter none pre) a
      ∧ calculateAdjustedCooldown a (events.filter q)
          = adjOf (readyAfter none (pre.filter q)) a := by
  refine ⟨calculateAdjustedCooldown_eq_adjOf hids _ pre a post rfl hS, ?_⟩
  have hS' : sameAbilityEvents (events.filter q) a.ability
      = pre.filter q ++ a :: post.filter q := by
    rw [sameAbilityEvents_filter, hS, List.filter_append, List.filter_cons_of_pos ha]
  exact calculateAdjustedCooldown_eq_adjOf (nodup_ids_filter q hids) _ _ a _ rfl hS'

/-- C18. In a spaced snapshot with pairwise distinct ids, the snapshot after
`removeEvent(id)` is spaced, and no remaining event has a larger adjusted
cooldown than before. -/
theorem removeEvent_preserves_spacing (events : List Event) (id : Nat)
    (hids : (events.map (fun e => e.id)).Nodup)
    (hspaced : Spaced events) :
    ∃ out, removeEvent events id = some out ∧ Spaced out
      ∧ ∀ a ∈ out, calculateAdjustedCooldown a out ≤ calculateAdjustedCooldown a events := by
  refine ⟨_, rfl, ?_, ?_⟩
  · intro e he
    have hmem := (List.mem_filter.mp he).1
    rw [pairs_iff_spacedFrom_none (nodup_ids_filter _ hids), sameAbilityEvents_filter]
    have h := (pairs_iff_spacedFrom_none hids e.ability).mp (hspaced e hmem)
    exact (spacedFrom_filter _ _ none none trivial h).1
  · intro a ha
    obtain ⟨hmem, hq⟩ := List.mem_filter.mp ha
    obtain ⟨i, hi⟩ := List.mem_iff_getElem?.mp (mem_sameAbilityEvents.mpr ⟨hmem, rfl⟩)
    have hS := split_of_getElem_some hi
    obtain ⟨h1, h2⟩ := calculateAdjustedCooldown_filter hids (fun e => e.id != id) hq hS
    rw [h1, h2]
    apply adjOf_mono
    have hsp := (pairs_iff_spacedFrom_none hids a.ability).mp (hspaced a hmem)
    rw [hS, spacedFrom_append] at hsp
    exact (spacedFrom_filter _ _ none none trivial hsp.1).2

/-- C18 at `mixedCooldowns` with the second use removed. -/
theorem removeEvent_preserves_spacing_witness :
    ((mixedCooldowns.map (fun e => e.id)).Nodup ∧ Spaced mixedCooldowns)
      ∧ ∃ out, removeEvent mixedCooldowns 2 = some out ∧ Spaced out
          ∧ ∀ a ∈ out,
              calculateAdjustedCooldown a out ≤ calculateAdjustedCooldown a mixedCooldowns :=
  ⟨⟨by decide, by decide⟩, removeEvent_preserves_spacing mixedCooldowns 2 (by decide) (by decide)⟩

/-- C14 fails as stated: of four uses with cooldown 60 at 0, 45, 105 and 170, the
second has a predecessor and a successor; removing it changes the adjusted
cooldown of the fourth, which is not its immediate successor, from 55 to 45. -/
theorem removeEvent_changes_later_event :
    ([fon 1 0 60, fon 2 45 60, fon 3 105 60, fon 4 170 60].map (fun e => e.id)).Nodup
      ∧ sameAbilityEvents [fon 1 0 60, fon 2 45 60, fon 3 105 60, fon 4 170 60]
          (fon 2 45 60).ability = [fon 1 0 60, fon 2 45 60, fon 3 105 60, fon 4 170 60]
      ∧ removeEvent [fon 1 0 60, fon 2 45 60, fon 3 105 60, fon 4 170 60] (fon 2 45 60).id
          = some [fon 1 0 60, fon 3 105 60, fon 4 170 60]
      ∧ calculateAdjustedCooldown (fon 4 170 60)
          [fon 1 0 60, fon 2 45 60, fon 3 105 60, fon 4 170 60] = 55
      ∧ calculateAdjustedCooldown (fon 4 170 60) [fon 1 0 60, fon 3 105 60, fon 4 170 60] = 45 := by
  decide

/-- C14 (amended). In a snapshot with pairwise distinct ids, after
`removeEvent(m.id)` the remaining events are the old events other than `m`, in
the same order and with every stored field kept, and every remaining event of
another ability, or before `m` in its ability's time-sorted list, has the same
adjusted cooldown on the new snapshot as on the old one. -/
theorem removeEvent_frame (events : List Event) (m : Event) (i : Nat)
    (hids : (events.map (fun e => e.id)).Nodup)
    (hm : (sameAbilityEvents events m.ability)[i]? = some m) :
    ∃ out, removeEvent events m.id = some out
      ∧ out.Sublist events
      ∧ (∀ a : Event, a ∈ out ↔ a ∈ events ∧ a.id ≠ m.id)
      ∧ ∀ a ∈ out,
          (a.ability ≠ m.ability
            ∨ ∃ k : Nat, k < i ∧ (sameAbilityEvents events m.ability)[k]? = some a) →
          calculateAdjustedCooldown a out = calculateAdjustedCooldown a events := by
  refine ⟨_, rfl, List.filter_sublist _, ?_, ?_⟩
  · intro a
    simp [List.mem_filter]
  · intro a ha hcase
    obtain ⟨hmem, hq⟩ := List.mem_filter.mp ha
    have hmmem := mem_of_getElem_sameAbilityEvents hm
    have hkey : ∃ pre post, sameAbilityEvents events a.ability = pre ++ a :: post
        ∧ ∀ x ∈ pre, x.id ≠ m.id := by
      rcases hcase with hab | ⟨k, hk, hka⟩
      · obtain ⟨j, hj⟩ := List.mem_iff_getElem?.mp (mem_sameAbilityEvents.mpr ⟨hmem, rfl⟩)
        refine ⟨_, _, split_of_getElem_some hj, ?_⟩
        intro x hx hEq
        have hxS := mem_sameAbilityEvents.mp (List.mem_of_mem_take hx)
        have := eq_of_id_eq hids hxS.1 hmmem hEq
        subst this
        exact hab hxS.2.symm
      · have hab : a.ability = m.ability := (mem_sameAbilityEvents.mp (List.getElem?_mem hka)).2
        rw [hab]
        refine ⟨_, _, split_of_getElem_some hka, ?_⟩
        intro x hx hEq
        obtain ⟨n, hn⟩ := List.mem_iff_getElem?.mp hx
        have hnk : n < k := by
          have := (List.getElem?_eq_some.mp hn).1
          simp at this
          omega
        rw [List.getElem?_take_of_lt hnk] at hn
        have hxS := mem_sameAbilityEvents.mp (List.getElem?_mem hn)
        have := eq_of_id_eq hids hxS.1 hmmem hEq
        subst this
        have hndS := nodup_ids_sameAbilityEvents x.ability hids
        have h1 := findIdx_id_of_nodup hndS hn
        have h2 := findIdx_id_of_nodup hndS hm
        omega
    obtain ⟨pre, post, hS, hpre⟩ := hkey
    obtain ⟨h1, h2⟩ := calculateAdjustedCooldown_filter hids (fun e => e.id != m.id) hq hS
    rw [h2, h1]
    congr 2
    rw [List.filter_eq_self]
    intro x hx
    simpa using hpre x hx

/-- C14 (amended) at the second of four uses: the first use keeps its adjusted
cooldown. -/
theorem removeEvent_frame_witness :
    (([fon 1 0 60, fon 2 45 60, fon 3 105 60, fon 4 170 60].map (fun e => e.id)).Nodup
      ∧ (sameAbilityEvents [fon 1 0 60, fon 2 45 60, fon 3 105 60, fon 4 170 60]
          (fon 2 45 60).ability)[1]? = some (fon 2 45 60))
      ∧ ∃ out, removeEvent [fon 1 0 60, fon 2 45 60, fon 3 105 60, fon 4 170 60]
            (fon 2 45 60).id = some out
          ∧ out.Sublist [fon 1 0 60, fon 2 45 60, fon 3 105 60, fon 4 170 60]
          ∧ (∀ a : Event, a ∈ out ↔
              a ∈ [fon 1 0 60, fon 2 45 60, fon 3 105 60, fon 4 170 60]
                ∧ a.id ≠ (fon 2 45 60).id)
          ∧ ∀ a ∈ out,
              (a.ability ≠ (fon 2 45 60).ability
                ∨ ∃ k : Nat, k < 1
                  ∧ (sameAbilityEvents [fon 1 0 60, fon 2 45 60, fon 3 105 60, fon 4 170 60]
                      (fon 2 45 60).ability)[k]? = some a) →
              calculateAdjustedCooldown a out = calculateAdjustedCooldown a
                [fon 1 0 60, fon 2 45 60, fon 3 105 60, fon 4 170 60] :=
  ⟨⟨by decide, by decide⟩,
    removeEvent_frame [fon 1 0 60, fon 2 45 60, fon 3 105 60, fon 4 170 60] (fon 2 45 60) 1
      (by decide) (by decide)⟩

/-! ## Equal cooldowns: the intermediate snapshots of the cascade -/

/-- A list with strictly increasing times whose events all occur in a time-sorted
list is a sublist of it. -/
theorem sublist_of_strict :
    ∀ (T F : List Event), T.Sorted timeLE → F.Pairwise (fun a b => a.time < b.time) →
      (∀ f ∈ F, f ∈ T) → F.Sublist T := by
  intro T
  induction T with
  | nil =>
    intro F _ _ hsub
    cases F with
    | nil => exact List.Sublist.slnil
    | cons f F => exact absurd (hsub f (List.mem_cons_self _ _)) (List.not_mem_nil f)
  | cons x T ih =>
    intro F hT hF hsub
    have hxT : ∀ y ∈ T, timeLE x y := List.rel_of_sorted_cons hT
    cases F with
    | nil => exact List.nil_sublist _
    | cons f F' =>
      obtain ⟨hfF, hF'⟩ := List.pairwise_cons.mp hF
      by_cases hfx : f = x
      · subst hfx
        refine List.Sublist.cons₂ f (ih F' hT.of_cons hF' ?_)
        intro g hg
        rcases List.mem_cons.mp (hsub g (List.mem_cons_of_mem _ hg)) with hgx | hgT
        · have := hfF g hg
          rw [hgx] at this
          exact absurd this (lt_irrefl _)
        · exact hgT
      · have hfT : f ∈ T := by
          rcases List.mem_cons.mp (hsub f (List.mem_cons_self _ _)) with h | h
          · exact absurd h hfx
          · exact h
        refine List.Sublist.cons x (ih (f :: F') hT.of_cons hF ?_)
        intro g hg
        rcases List.mem_cons.mp (hsub g hg) with hgx | hgT
        · have h1 : x.time ≤ f.time := hxT f hfT
          rcases List.mem_cons.mp hg with hgf | hgF
          · exact absurd (hgf.symm.trans hgx) hfx
          · have := hfF g hgF
            rw [hgx] at this
            omega
        · exact hgT

/-- Along a time-sorted list whose events share the cooldown `c ≥ 0`, the ready
time after the list is no earlier than the ready time after any sublist. -/
theorem readyLE_of_sublist (c : Int) (hc : 0 ≤ c) :
    ∀ {F T : List Event}, F.Sublist T → T.Sorted timeLE → (∀ x ∈ T, x.cooldown = c) →
      ∀ rF rT : Option Int, ReadyLE rF rT →
        (∀ a, rF = some a → ∀ y ∈ T, a ≤ y.time + c) →
        ReadyLE (readyAfter rF F) (readyAfter rT T) := by
  intro F T h
  induction h with
  | slnil => intro _ _ rF rT hle _; exact hle
  | @cons F T x _ ih =>
    intro hs hcd rF rT hle hbound
    have hx : x.cooldown = c := hcd x (List.mem_cons_self _ _)
    refine ih hs.of_cons (fun y hy => hcd y (List.mem_cons_of_mem _ hy)) rF _ ?_
      (fun a ha y hy => hbound a ha y (List.mem_cons_of_mem _ hy))
    cases rF with
    | none => trivial
    | some a =>
      have hax := hbound a rfl x (List.mem_cons_self _ _)
      cases rT with
      | none => exact absurd hle (by simp [ReadyLE])
      | some b =>
        have hab : a ≤ b := hle
        show a ≤ x.time + adjOf (some b) x
        unfold adjOf
        simp only [hx]
        omega
  | @cons₂ F T x _ ih =>
    intro hs hcd rF rT hle hbound
    have hx : x.cooldown = c := hcd x (List.mem_cons_self _ _)
    have hxT : ∀ y ∈ T, timeLE x y := List.rel_of_sorted_cons hs
    have hmono := adjOf_mono hle x
    have hle' := adjOf_le rF x (by omega)
    refine ih hs.of_cons (fun y hy => hcd y (List.mem_cons_of_mem _ hy)) _ _
      (by show x.time + adjOf rF x ≤ x.time + adjOf rT x; omega) ?_
    intro a ha y hy
    have h1 : x.time ≤ y.time := hxT y hy
    have h2 : a = x.time + adjOf rF x := (Option.some.inj ha).symm
    omega

/-- What a spaced list with cooldowns above 15 gives: strictly increasing times,
all after the ready time before the list and before the ready time after it. -/
theorem spacedFrom_facts :
    ∀ (L : List Event) (r : Option Int), spacedFrom r L → (∀ a ∈ L, 15 < a.cooldown) →
      L.Pairwise (fun a b => a.time < b.time)
        ∧ (∀ ρ, r = some ρ → ∀ a ∈ L, ρ ≤ a.time)
        ∧ (∀ a ∈ L, ∃ ρ', readyAfter r L = some ρ' ∧ a.time < ρ')
        ∧ (∀ ρ, r = some ρ → ∃ ρ', readyAfter r L = some ρ' ∧ ρ ≤ ρ') := by
  intro L
  induction L with
  | nil =>
    intro r _ _
    refine ⟨List.Pairwise.nil, fun _ _ a ha => absurd ha (List.not_mem_nil a),
      fun a ha => absurd ha (List.not_mem_nil a), fun ρ hρ => ⟨ρ, hρ, le_refl _⟩⟩
  | cons a rest ih =>
    intro r hs hcd
    obtain ⟨hcheck, hrest⟩ := hs
    have hca := hcd a (List.mem_cons_self _ _)
    have hge := adjOf_ge r a
    obtain ⟨p1, p2, p3, p4⟩ := ih (some (a.time + adjOf r a)) hrest
      (fun b hb => hcd b (List.mem_cons_of_mem _ hb))
    obtain ⟨ρ', hρ', hle'⟩ := p4 _ rfl
    refine ⟨?_, ?_, ?_, ?_⟩
    · rw [List.pairwise_cons]
      refine ⟨?_, p1⟩
      intro b hb
      have := p2 _ rfl b hb
      omega
    · intro ρ hρ b hb
      have h1 := hcheck ρ hρ
      rcases List.mem_cons.mp hb with rfl | hb'
      · exact h1
      · have := p2 _ rfl b hb'
        omega
    · intro b hb
      rcases List.mem_cons.mp hb with rfl | hb'
      · exact ⟨ρ', hρ', by omega⟩
      · exact p3 b hb'
    · intro ρ hρ
      have h1 := hcheck ρ hρ
      exact ⟨ρ', hρ', by omega⟩

/-- In a snapshot where the events of one ability share the cooldown `c ≥ 0`, the
adjusted cooldown of `x` is at least the one computed along any strictly
increasing list of earlier events of that ability. -/
theorem adjOf_le_calculateAdjustedCooldown {U : List Event}
    (hids : (U.map (fun e => e.id)).Nodup) (c : Int) (hc : 0 ≤ c) {x : Event} (hx : x ∈ U)
    (hcd : ∀ y ∈ U, y.ability = x.ability → y.cooldown = c)
    (F : List Event) (hF : ∀ f ∈ F, f ∈ U ∧ f.ability = x.ability ∧ f.time < x.time)
    (hstrict : F.Pairwise (fun a b => a.time < b.time)) :
    adjOf (readyAfter none F) x ≤ calculateAdjustedCooldown x U := by
  obtain ⟨i, hi⟩ := List.mem_iff_getElem?.mp (mem_sameAbilityEvents.mpr ⟨hx, rfl⟩)
  have hS := split_of_getElem_some hi
  have hsorted := sorted_sameAbilityEvents U x.ability
  rw [calculateAdjustedCooldown_eq_adjOf hids _ _ x _ rfl hS]
  apply adjOf_mono
  rw [hS] at hsorted
  obtain ⟨hs1, hs2, -⟩ := List.pairwise_append.mp hsorted
  have hsub : ∀ f ∈ F, f ∈ (sameAbilityEvents U x.ability).take i := by
    intro f hf
    obtain ⟨hfU, hfab, hft⟩ := hF f hf
    have hfS : f ∈ sameAbilityEvents U x.ability := mem_sameAbilityEvents.mpr ⟨hfU, hfab⟩
    rw [hS] at hfS
    rcases List.mem_append.mp hfS with h | h
    · exact h
    · rcases List.mem_cons.mp h with h | h
      · rw [h] at hft
        exact absurd hft (lt_irrefl _)
      · have : x.time ≤ f.time := (List.pairwise_cons.mp hs2).1 f h
        omega
  refine readyLE_of_sublist c hc (sublist_of_strict _ F hs1 hstrict hsub) hs1 ?_ none none
    trivial (fun a ha => by simp at ha)
  intro y hy
  have hyS := mem_sameAbilityEvents.mp (List.mem_of_mem_take hy)
  exact hcd y hyS.1 hyS.2

theorem map_id_retime (σ : Event → Int) (events : List Event) :
    (retime σ events).map (fun e => e.id) = events.map (fun e => e.id) := by
  unfold retime
  rw [List.map_map]
  exact List.map_congr_left (fun _ _ => rfl)

theorem withTime_congr {σ τ : Event → Int} {a : Event} (h : τ a = σ a) :
    withTime τ a = withTime σ a := by
  unfold withTime
  rw [h]

/-- The cascade with one shared cooldown `c > 15`: when the events settled so far
have strictly increasing times and are spaced along the list, the cascade
returns a retiming under which the whole ability list is so. -/
theorem cascade_spaced (events : List Event) (hids : (events.map (fun e => e.id)).Nodup)
    (ability : String) (c : Int) (hc : 15 < c)
    (hcd : ∀ a ∈ sameAbilityEvents events ability, a.cooldown = c) :
    ∀ (L done : List Event) (prevS : Event) (σ : Event → Int),
      sameAbilityEvents events ability = done ++ prevS :: L →
      (done ++ [prevS]).Pairwise (fun a b => σ a < σ b) →
      spacedFrom none ((done ++ [prevS]).map (withTime σ)) →
      ∃ σ' : Event → Int,
        cascade prevS L (retime σ events) = some (retime σ' events)
        ∧ (sameAbilityEvents events ability).Pairwise (fun a b => σ' a < σ' b)
        ∧ spacedFrom none ((sameAbilityEvents events ability).map (withTime σ')) := by
  intro L
  induction L with
  | nil =>
    intro done prevS σ hS hpw hsp
    rw [hS]
    exact ⟨σ, rfl, hpw, hsp⟩
  | cons nextS rest ih =>
    intro done prevS σ hS hpw hsp
    have hS2 : sameAbilityEvents events ability = (done ++ [prevS]) ++ nextS :: rest := by
      rw [hS]; simp
    have hmemS : ∀ a ∈ done ++ [prevS], a ∈ sameAbilityEvents events ability := by
      intro a ha; rw [hS2]; exact List.mem_append_left _ ha
    have hprevS : prevS ∈ sameAbilityEvents events ability := hmemS prevS (by simp)
    have hnextS : nextS ∈ sameAbilityEvents events ability := by rw [hS2]; simp
    have hprev := (mem_sameAbilityEvents.mp hprevS).1
    have hprevab := (mem_sameAbilityEvents.mp hprevS).2
    have hnextMem := (mem_sameAbilityEvents.mp hnextS).1
    have hndS := nodup_ids_sameAbilityEvents ability hids
    rw [hS2, List.map_append] at hndS
    have hdisj := (List.nodup_append.mp hndS).2.2
    have hne : ∀ a ∈ done ++ [prevS], a.id ≠ nextS.id := by
      intro a ha hEq
      exact hdisj (List.mem_map_of_mem _ ha)
        (by rw [hEq]; exact List.mem_map_of_mem _ (List.mem_cons_self _ _))
    obtain ⟨hpwd, -, hcross⟩ := List.pairwise_append.mp hpw
    have hlast : ∀ a ∈ done ++ [prevS], σ a ≤ σ prevS := by
      intro a ha
      rcases List.mem_append.mp ha with h | h
      · exact le_of_lt (hcross a h prevS (List.mem_singleton_self _))
      · rw [List.mem_singleton.mp h]
    have hf1 : (retime σ events).find? (fun e => e.id == prevS.id) = some (withTime σ prevS) := by
      rw [find_retime, find_id_of_mem hids hprev]; rfl
    have hf2 : (retime σ events).find? (fun e => e.id == nextS.id) = some (withTime σ nextS) := by
      rw [find_retime, find_id_of_mem hids hnextMem]; rfl
    have hpt : (withTime σ prevS).time = σ prevS := rfl
    have hnt : (withTime σ nextS).time = σ nextS := rfl
    have hnid : (withTime σ nextS).id = nextS.id := rfl
    have hkey : adjOf (readyAfter none (done.map (withTime σ))) (withTime σ prevS)
        ≤ calculateAdjustedCooldown (withTime σ prevS) (retime σ events) := by
      have hxU : withTime σ prevS ∈ retime σ events := List.mem_map_of_mem _ hprev
      refine adjOf_le_calculateAdjustedCooldown (U := retime σ events)
        (by rw [map_id_retime]; exact hids) c (by omega) hxU ?_ _ ?_ ?_
      · intro y hy hyab
        obtain ⟨a, ha, rfl⟩ := List.mem_map.mp hy
        exact hcd a (mem_sameAbilityEvents.mpr ⟨ha, hyab.trans hprevab⟩)
      · intro f hf
        obtain ⟨a, ha, rfl⟩ := List.mem_map.mp hf
        have haS := mem_sameAbilityEvents.mp (hmemS a (List.mem_append_left _ ha))
        exact ⟨List.mem_map_of_mem _ haS.1, haS.2.trans hprevab.symm,
          hcross a ha prevS (List.mem_singleton_self _)⟩
      · rw [List.pairwise_map]
        exact hpwd
    have hge := calculateAdjustedCooldown_ge (withTime σ prevS) (retime σ events)
    have hcp : (withTime σ prevS).cooldown = c := hcd prevS hprevS
    rw [hcp] at hge
    obtain ⟨σ₁, hA, hB, hC⟩ : ∃ σ₁ : Event → Int,
        cascade prevS (nextS :: rest) (retime σ events) = cascade nextS rest (retime σ₁ events)
        ∧ (∀ a ∈ done ++ [prevS], σ₁ a = σ a)
        ∧ σ prevS + calculateAdjustedCooldown (withTime σ prevS) (retime σ events)
            ≤ σ₁ nextS := by
      by_cases hlt : σ nextS
          < σ prevS + calculateAdjustedCooldown (withTime σ prevS) (retime σ events)
      · refine ⟨fun a => if a.id == nextS.id then
            σ prevS + calculateAdjustedCooldown (withTime σ prevS) (retime σ events) else σ a,
          ?_, ?_, ?_⟩
        · simp only [cascade, hf1, hf2, hpt, hnt, hnid, if_pos hlt, setTime_retime]
        · intro a ha
          have : (a.id == nextS.id) = false := by simpa using hne a ha
          simp [this]
        · simp
      · refine ⟨σ, ?_, fun _ _ => rfl, by omega⟩
        simp only [cascade, hf1, hf2, hpt, hnt, if_neg hlt]
    have hpw' : ((done ++ [prevS]) ++ [nextS]).Pairwise (fun a b => σ₁ a < σ₁ b) := by
      refine List.pairwise_append.mpr ⟨?_, List.pairwise_singleton _ _, ?_⟩
      · refine List.Pairwise.imp_of_mem ?_ hpw
        intro a b ha hb hab
        rw [hB a ha, hB b hb]
        exact hab
      · intro a ha b hb
        rw [List.mem_singleton.mp hb, hB a ha]
        have := hlast a ha
        omega
    have hsp' : spacedFrom none (((done ++ [prevS]) ++ [nextS]).map (withTime σ₁)) := by
      have hmap : (done ++ [prevS]).map (withTime σ₁) = (done ++ [prevS]).map (withTime σ) :=
        List.map_congr_left (fun a ha => withTime_congr (hB a ha))
      rw [List.map_append, spacedFrom_append, hmap]
      refine ⟨hsp, ?_, trivial⟩
      intro ρ hρ
      rw [List.map_append, readyAfter_append] at hρ
      have hρ' : ρ = σ prevS + adjOf (readyAfter none (done.map (withTime σ)))
          (withTime σ prevS) := (Option.some.inj hρ).symm
      show ρ ≤ σ₁ nextS
      omega
    obtain ⟨σ', hres, h1, h2⟩ := ih (done ++ [prevS]) nextS σ₁ hS2 hpw' hsp'
    exact ⟨σ', by rw [hA]; exact hres, h1, h2⟩

theorem withTime_self {σ : Event → Int} {a : Event} (h : σ a = a.time) : withTime σ a = a := by
  unfold withTime
  rw [h]

/-- The clamped time is no earlier than the ready time of the events before the
edited one. -/
theorem clampedTime_ge_ready {events : List Event}
    (hids : (events.map (fun e => e.id)).Nodup) {e : Event} {pre post : List Event}
    (hS : sameAbilityEvents events e.ability = pre ++ e :: post) (t : Int) :
    ∀ ρ, readyAfter none pre = some ρ → ρ ≤ clampedTime events e t := by
  intro ρ hρ
  rcases List.eq_nil_or_concat pre with h | ⟨pre', p, h⟩
  · rw [h] at hρ
    exact absurd hρ (by simp [readyAfter])
  · have hpre : pre = pre' ++ [p] := by rw [h]; simp
    subst hpre
    have hx : (sameAbilityEvents events e.ability)[pre'.length + 1]? = some e := by
      rw [hS, List.getElem?_append_right (by simp)]
      simp
    have hp : (sameAbilityEvents events e.ability)[pre'.length]? = some p := by
      rw [hS, List.append_assoc, List.getElem?_append_right (by omega)]
      simp
    have hidx := matchedIndex_of_getElem_some hids hx
    have hab : p.ability = e.ability := (mem_sameAbilityEvents.mp (List.getElem?_mem hp)).2
    have hSp : sameAbilityEvents events p.ability = pre' ++ p :: (e :: post) := by
      rw [hab, hS]; simp
    have hcalc := calculateAdjustedCooldown_eq_adjOf hids _ pre' p (e :: post) rfl hSp
    rw [readyAfter_append] at hρ
    have hρ' : ρ = p.time + adjOf (readyAfter none pre') p := (Option.some.inj hρ).symm
    unfold clampedTime
    rw [hidx]
    simp only [Nat.zero_lt_succ, if_true, Nat.add_sub_cancel, hp, hcalc]
    split <;> omega

/-- C20 (amended). In a snapshot with pairwise distinct ids where the events of the
edited event's ability share one stored cooldown `c > 15` and are spaced, after
`updateEventTime(e.id, requestedTime)`, whatever the requested time, also past
later events, the events of that ability are spaced on the new snapshot. -/
theorem updateEventTime_restores_spacing (events : List Event) (e : Event)
    (requestedTime c : Int)
    (hids : (events.map (fun x => x.id)).Nodup)
    (he : e ∈ events)
    (hc : 15 < c)
    (hcd : ∀ a ∈ events, a.ability = e.ability → a.cooldown = c)
    (hsp : ∀ p ∈ (sameAbilityEvents events e.ability).zip
        (sameAbilityEvents events e.ability).tail,
        p.1.time + calculateAdjustedCooldown p.1 events ≤ p.2.time) :
    ∃ out, updateEventTime events e.id requestedTime = some out
      ∧ ∀ p ∈ (sameAbilityEvents out e.ability).zip (sameAbilityEvents out e.ability).tail,
          p.1.time + calculateAdjustedCooldown p.1 out ≤ p.2.time := by
  have hget := getElem_matchedIndex_some hids he
  obtain ⟨pre, post, hS, hpost⟩ : ∃ pre post,
      sameAbilityEvents events e.ability = pre ++ e :: post
      ∧ (sameAbilityEvents events e.ability).drop (matchedIndex e events + 1) = post :=
    ⟨_, _, split_of_getElem_some hget, rfl⟩
  have hcdS : ∀ a ∈ sameAbilityEvents events e.ability, a.cooldown = c := by
    intro a ha
    have := mem_sameAbilityEvents.mp ha
    exact hcd a this.1 this.2
  have hspS := (pairs_iff_spacedFrom_none hids e.ability).mp hsp
  rw [hS, spacedFrom_append] at hspS
  have hcdpre : ∀ a ∈ pre, 15 < a.cooldown := by
    intro a ha
    rw [hcdS a (by rw [hS]; exact List.mem_append_left _ ha)]
    exact hc
  obtain ⟨hstrict, -, hbefore, -⟩ := spacedFrom_facts pre none hspS.1 hcdpre
  have hready := clampedTime_ge_ready hids hS requestedTime
  have hndS := nodup_ids_sameAbilityEvents e.ability hids
  rw [hS, List.map_append] at hndS
  have hdisj := (List.nodup_append.mp hndS).2.2
  have hσpre : ∀ a ∈ pre,
      (if a.id == e.id then clampedTime events e requestedTime else a.time) = a.time := by
    intro a ha
    have hne : a.id ≠ e.id := by
      intro hEq
      exact hdisj (List.mem_map_of_mem _ ha)
        (by rw [hEq]; exact List.mem_map_of_mem _ (List.mem_cons_self _ _))
    have : (a.id == e.id) = false := by simpa using hne
    simp [this]
  have hlt : ∀ a ∈ pre, a.time < clampedTime events e requestedTime := by
    intro a ha
    obtain ⟨ρ', hρ', hlt'⟩ := hbefore a ha
    have := hready ρ' hρ'
    omega
  have hpw₀ : (pre ++ [e]).Pairwise (fun a b =>
      (if a.id == e.id then clampedTime events e requestedTime else a.time)
        < (if b.id == e.id then clampedTime events e requestedTime else b.time)) := by
    refine List.pairwise_append.mpr ⟨?_, List.pairwise_singleton _ _, ?_⟩
    · refine List.Pairwise.imp_of_mem ?_ hstrict
      intro a b ha hb hab
      rw [hσpre a ha, hσpre b hb]
      exact hab
    · intro a ha b hb
      rw [List.mem_singleton.mp hb, hσpre a ha]
      simpa using hlt a ha
  have hsp₀ : spacedFrom none ((pre ++ [e]).map (withTime (fun a =>
      if a.id == e.id then clampedTime events e requestedTime else a.time))) := by
    have hmap : pre.map (withTime (fun a =>
        if a.id == e.id then clampedTime events e requestedTime else a.time)) = pre := by
      conv_rhs => rw [← List.map_id pre]
      exact List.map_congr_left (fun a ha => withTime_self (hσpre a ha))
    rw [List.map_append, spacedFrom_append, hmap]
    refine ⟨hspS.1, ?_, trivial⟩
    intro ρ hρ
    show ρ ≤ (if e.id == e.id then clampedTime events e requestedTime else e.time)
    simpa using hready ρ hρ
  obtain ⟨σ', hres, hpw, hspaced⟩ := cascade_spaced events hids e.ability c hc hcdS post pre e
    (fun a => if a.id == e.id then clampedTime events e requestedTime else a.time) hS hpw₀ hsp₀
  have hset : setTime events e.id (clampedTime events e requestedTime)
      = retime (fun a => if a.id == e.id then clampedTime events e requestedTime
          else a.time) events := by
    have h := setTime_retime (fun a => a.time) events e.id (clampedTime events e requestedTime)
    rw [retime_self] at h
    exact h
  refine ⟨retime σ' events, ?_, ?_⟩
  · rw [updateEventTime_eq_cascade hids he, hpost, hset]
    exact hres
  · have hkeep : (sameAbilityEvents events e.ability).Pairwise (KeepsOrder σ') :=
      hpw.imp (fun h => ⟨le_of_lt h, fun _ => h⟩)
    rw [pairs_iff_spacedFrom_none (by rw [map_id_retime]; exact hids) e.ability,
      sameAbilityEvents_retime σ' events e.ability hkeep]
    exact hspaced

/-- C20 fails as stated at `c = 15`: three spaced events with cooldown 15, the one
first in time order moved to 40; all three end at 40, where the second in the
snapshot has adjusted cooldown 15 and the third should not be before 55. -/
theorem updateEventTime_cooldown_15_unspaced :
    ([fon 1 5 15, fon 2 0 15, fon 3 15 15].map (fun x => x.id)).Nodup
      ∧ (∀ a ∈ [fon 1 5 15, fon 2 0 15, fon 3 15 15],
          a.ability = (fon 2 0 15).ability → a.cooldown = 15)
      ∧ (∀ p ∈ (sameAbilityEvents [fon 1 5 15, fon 2 0 15, fon 3 15 15] "Force of Nature").zip
          (sameAbilityEvents [fon 1 5 15, fon 2 0 15, fon 3 15 15] "Force of Nature").tail,
          p.1.time + calculateAdjustedCooldown p.1 [fon 1 5 15, fon 2 0 15, fon 3 15 15]
            ≤ p.2.time)
      ∧ updateEventTime [fon 1 5 15, fon 2 0 15, fon 3 15 15] 2 40
          = some [fon 1 40 15, fon 2 40 15, fon 3 40 15]
      ∧ ¬ (∀ p ∈ (sameAbilityEvents [fon 1 40 15, fon 2 40 15, fon 3 40 15]
            "Force of Nature").zip
          (sameAbilityEvents [fon 1 40 15, fon 2 40 15, fon 3 40 15] "Force of Nature").tail,
          p.1.time + calculateAdjustedCooldown p.1 [fon 1 40 15, fon 2 40 15, fon 3 40 15]
            ≤ p.2.time) := by
  decide

/-- C20 (amended) at Scenario A with three uses, the first dragged to 100, past
the second. -/
theorem updateEventTime_restores_spacing_witness :
    (([fon 1 0 60, fon 2 45 60, fon 3 105 60].map (fun x => x.id)).Nodup
      ∧ fon 1 0 60 ∈ [fon 1 0 60, fon 2 45 60, fon 3 105 60]
      ∧ (15 : Int) < 60
      ∧ (∀ a ∈ [fon 1 0 60, fon 2 45 60, fon 3 105 60],
          a.ability = (fon 1 0 60).ability → a.cooldown = 60)
      ∧ (∀ p ∈ (sameAbilityEvents [fon 1 0 60, fon 2 45 60, fon 3 105 60]
            (fon 1 0 60).ability).zip
          (sameAbilityEvents [fon 1 0 60, fon 2 45 60, fon 3 105 60] (fon 1 0 60).ability).tail,
          p.1.time + calculateAdjustedCooldown p.1 [fon 1 0 60, fon 2 45 60, fon 3 105 60]
            ≤ p.2.time))
      ∧ ∃ out, updateEventTime [fon 1 0 60, fon 2 45 60, fon 3 105 60] (fon 1 0 60).id 100
            = some out
          ∧ ∀ p ∈ (sameAbilityEvents out (fon 1 0 60).ability).zip
              (sameAbilityEvents out (fon 1 0 60).ability).tail,
              p.1.time + calculateAdjustedCooldown p.1 out ≤ p.2.time :=
  ⟨⟨by decide, by decide, by decide, by decide, by decide⟩,
    updateEventTime_restores_spacing [fon 1 0 60, fon 2 45 60, fon 3 105 60] (fon 1 0 60) 100 60
      (by decide) (by decide) (by decide) (by decide) (by decide)⟩
end CDTimeline
